import Mathlib

/-!
Verification of `src/include/godot_cpp/templates/cowdata.hpp` (template class
`godot::CowData<T>`), a copy-on-write reference-counted contiguous buffer.

Shallow embedding.  A buffer handle (`_ptr`) is modeled as `Option Nat`: `none`
is the null handle, `some p` references the allocation with identity `p` in an
explicit heap.  An allocation (header + payload in one block) is a `Storage`:
its atomic refcount and its payload, the list of live elements (`*_get_size()`
is the list length).  The heap maps allocation identities to storages; freeing
removes the entry; a fresh allocation gets the identity `next`, which is larger
than every live identity (well-formedness `Wf`).

Machine integers: `USize` is `uint64_t`; the allocation-size arithmetic of
`next_po2` / `_get_alloc_size` is modeled exactly, as `Nat` arithmetic
`% 2 ^ 64`.  Element counts are list lengths (`Nat`), converted to the signed
`Size` (`int64_t`) as `Int` where the source uses `Size`; sizes in any
reachable state fit in the address space, so no signed wrap is modeled.

The allocator (`Memory::alloc_static` / `realloc_static`) is modeled as always
succeeding, and a reallocation preserves the identity and contents of a block
(capacity is not observable: the power-of-two bucket policy only decides when
`realloc_static` is called, which never changes payload or header contents).
The one place where an allocation-failure *check* appears in the functions
under study — resize's grow-from-scratch branch, lines 325-327 — is modeled
separately and exactly (`grow_from_scratch_oom_detected`), because the check
there is performed only after the returned pointer has been advanced past the
header pad.

Trait dispatch (`is_trivially_copyable` / `constructible` / `destructible`)
only decides between byte-wise and element-wise copies, constructions and
destructions; both branches yield the same payload contents, so the model does
not carry the flags.  A newly exposed slot of a grown buffer is modeled as
`default`: the source default-constructs it (non-trivial `T`), zero-fills it
(`p_ensure_zero`), or leaves it uninitialized; no claim depends on that value.
-/

set_option maxHeartbeats 1000000

namespace CowDataModel

/-- The members of godot's `Error` enum that occur in cowdata.hpp. -/
inductive Err where
  | OK
  | ERR_INVALID_PARAMETER
  | ERR_OUT_OF_MEMORY
deriving DecidableEq

/-- The modulus of `USize` (= `uint64_t`) arithmetic. -/
def USIZE_MOD : Nat := 2 ^ 64

/-- `ALLOC_PAD = sizeof(USize) * 2`: the header pad, in bytes (line 99). -/
def ALLOC_PAD : Nat := 8 * 2

/-- One step `x |= x >> k` of the bit-smearing cascade in `next_po2`. -/
def orShift (x k : Nat) : Nat := x ||| (x >>> k)

/-- The six `x |= x >> k` steps of `next_po2` for the 64-bit `USize`
(lines 87-93; `sizeof(USize) == 8`, so the `>> 32` step is included). -/
def po2Spread (x : Nat) : Nat :=
  orShift (orShift (orShift (orShift (orShift (orShift x 1) 2) 4) 8) 16) 32

/-- `CowData<T>::next_po2` (lines 81-97): round up to the next power of two;
`next_po2(0) = 0`.  The final `++x` is `USize` arithmetic and wraps. -/
def next_po2 (x : Nat) : Nat :=
  if x = 0 then 0 else (po2Spread (x - 1) + 1) % USIZE_MOD

/-- `CowData<T>::_get_alloc_size` (lines 121-123):
`next_po2(p_elements * sizeof(T))`, the multiplication wrapping in `USize`.
`esize` stands for `sizeof(T)`. -/
def get_alloc_size (esize n : Nat) : Nat := next_po2 ((n * esize) % USIZE_MOD)

/-- `CowData<T>::_get_alloc_size_checked` (lines 125-147).  `is32` selects the
`#if defined(__GNUC__) && defined(IS_32_BIT)` branch, which checks the
multiplication with `__builtin_mul_overflow` and the pad addition `o + 32`
with `__builtin_add_overflow`; every other build computes
`_get_alloc_size(p_elements)` unchecked.  `some out` models returning `true`
with `*out = out`; the source returns `*out` converted to `bool`, so a
computed size of `0` reports failure on both paths. -/
def get_alloc_size_checked (is32 : Bool) (esize n : Nat) : Option Nat :=
  if n = 0 then some 0
  else if is32 then
    if USIZE_MOD ≤ n * esize then none
    else
      let o := n * esize
      let out := next_po2 o
      if USIZE_MOD ≤ o + 32 then none
      else if out = 0 then none else some out
  else
    let out := get_alloc_size esize n
    if out = 0 then none else some out

/-- Lines 325-327 of `resize` (grow from scratch):
`USize *ptr = (USize *)Memory::alloc_static(...); ptr += 2;
ERR_FAIL_NULL_V(ptr, ERR_OUT_OF_MEMORY);`.
`allocResult` is the byte address returned by the allocator (`0` = null);
`ptr += 2` advances two `USize` slots (16 bytes) before the null check runs.
This predicate is `true` exactly when the `ERR_FAIL_NULL_V` guard fires. -/
def grow_from_scratch_oom_detected (allocResult : Nat) : Bool :=
  decide ((allocResult + ALLOC_PAD) % USIZE_MOD = 0)

/-- An allocation: the header (atomic refcount; the stored length is the
payload list's length) together with the payload elements. -/
structure Storage (α : Type) where
  refcount : Nat
  data : List α
deriving DecidableEq

/-- Lookup of an allocation identity among live blocks (first match). -/
def blkLookup {α : Type} : List (Nat × Storage α) → Nat → Option (Storage α)
  | [], _ => none
  | b :: bs, p => if b.1 = p then some b.2 else blkLookup bs p

/-- Replace the storage of an identity (first match; no-op if absent). -/
def blkUpdate {α : Type} : List (Nat × Storage α) → Nat → Storage α → List (Nat × Storage α)
  | [], _, _ => []
  | b :: bs, p, s => if b.1 = p then (p, s) :: bs else b :: blkUpdate bs p s

/-- Remove every block with the given identity (`Memory::free_static`). -/
def blkFree {α : Type} : List (Nat × Storage α) → Nat → List (Nat × Storage α)
  | [], _ => []
  | b :: bs, p => if b.1 = p then blkFree bs p else b :: blkFree bs p

/-- The heap of live allocations.  `next` is the identity the next fresh
allocation receives; in well-formed heaps it exceeds all live identities. -/
structure Heap (α : Type) where
  blocks : List (Nat × Storage α)
  next : Nat
deriving DecidableEq

def Heap.lookup {α : Type} (h : Heap α) (p : Nat) : Option (Storage α) :=
  blkLookup h.blocks p

def Heap.update {α : Type} (h : Heap α) (p : Nat) (s : Storage α) : Heap α :=
  ⟨blkUpdate h.blocks p s, h.next⟩

def Heap.free {α : Type} (h : Heap α) (p : Nat) : Heap α :=
  ⟨blkFree h.blocks p, h.next⟩

/-- A fresh allocation: a new block under identity `next`. -/
def Heap.alloc {α : Type} (h : Heap α) (s : Storage α) : Heap α × Nat :=
  (⟨(h.next, s) :: h.blocks, h.next + 1⟩, h.next)

/-- Heap well-formedness: every live identity is below `next` (so fresh
allocations are really fresh) and every live block is referenced
(a refcount that reaches 0 is freed at once by `_unref`). -/
def Wf {α : Type} (h : Heap α) : Prop :=
  ∀ b ∈ h.blocks, b.1 < h.next ∧ 1 ≤ b.2.refcount

instance {α : Type} (h : Heap α) : Decidable (Wf h) :=
  List.decidableBAll _ h.blocks

/-- Handle validity (`Bool` form): the handle is null or references a live
block with at least one element.  A non-null `_ptr` with stored size 0 never
arises: the only transitions creating a block store a positive size. -/
def validHandle {α : Type} (h : Heap α) (hd : Option Nat) : Bool :=
  match hd with
  | none => true
  | some p =>
    match h.lookup p with
    | none => false
    | some s => decide (0 < s.data.length)

/-- Handle validity, as a proposition. -/
def ValidHandle {α : Type} (h : Heap α) (hd : Option Nat) : Prop :=
  validHandle h hd = true

instance {α : Type} (h : Heap α) (hd : Option Nat) : Decidable (ValidHandle h hd) :=
  instDecidableEqBool (validHandle h hd) true

/-- `CowData<T>::size` (lines 166-173): the stored length, or 0 for the null
handle. -/
def size {α : Type} (h : Heap α) (hd : Option Nat) : Int :=
  match hd with
  | none => 0
  | some p =>
    match h.lookup p with
    | none => 0
    | some s => (s.data.length : Int)

/-- `CowData<T>::is_empty` (line 176): `_ptr == nullptr`. -/
def is_empty (hd : Option Nat) : Bool := hd.isNone

/-- `CowData<T>::get` (lines 190-194): `CRASH_BAD_INDEX` then `_ptr[p_index]`.
The fatal out-of-range check never passes control onward in the source; out of
range (never reached under the theorems' hypotheses) the model yields
`default`. -/
def get {α : Type} [Inhabited α] (h : Heap α) (hd : Option Nat) (i : Int) : α :=
  match hd with
  | none => default
  | some p =>
    match h.lookup p with
    | none => default
    | some s => if 0 ≤ i then s.data.getD i.toNat default else default

/-- `CowData<T>::_unref` (lines 230-255): null is a no-op; otherwise the
refcount is decremented, and when it reaches 0 the elements are destroyed and
the block freed.  All call sites pass `_ptr` itself, which `_get_refcount` /
`_get_size` read. -/
def unref {α : Type} (h : Heap α) (hd : Option Nat) : Heap α :=
  match hd with
  | none => h
  | some p =>
    match h.lookup p with
    | none => h
    | some s =>
      if 0 < s.refcount - 1 then h.update p ⟨s.refcount - 1, s.data⟩
      else h.free p

/-- `CowData<T>::_copy_on_write` (lines 257-294).  Null: return 0.  Refcount
> 1: allocate a fresh block, header refcount 1 and the current length, copy
the payload (bytewise or element-wise — same contents), `_unref` the old
block (which, as the refcount was > 1, only decrements) and adopt the fresh
block; return 1.  Otherwise no-op, returning the refcount read. -/
def copy_on_write {α : Type} (h : Heap α) (hd : Option Nat) : Heap α × Option Nat × Nat :=
  match hd with
  | none => (h, none, 0)
  | some p =>
    match h.lookup p with
    | none => (h, some p, 0)
    | some s =>
      if 1 < s.refcount then
        let a := h.alloc ⟨1, s.data⟩
        (unref a.1 (some p), some a.2, 1)
      else (h, some p, s.refcount)

/-- `CowData<T>::set` (lines 178-182): `ERR_FAIL_INDEX` (out of range: report
and return, no state change), `_copy_on_write()`, then `_ptr[p_index] =
p_elem`.  The returned handle is the object's `_ptr` afterwards. -/
def set {α : Type} (h : Heap α) (hd : Option Nat) (i : Int) (v : α) :
    Heap α × Option Nat :=
  if i < 0 ∨ size h hd ≤ i then (h, hd)
  else
    let c := copy_on_write h hd
    match c.2.1 with
    | none => (c.1, none)
    | some p =>
      match c.1.lookup p with
      | none => (c.1, some p)
      | some s => (c.1.update p ⟨s.refcount, s.data.set i.toNat v⟩, some p)

/-- `CowData<T>::resize` (lines 296-377).  Negative: `ERR_INVALID_PARAMETER`.
Unchanged: `OK`.  Zero: `_unref`, null the handle, `OK`.  Otherwise
`_copy_on_write()` first, then the checked allocation size (failure:
`ERR_OUT_OF_MEMORY`, after the copy-on-write already happened).  Growing from
size 0 allocates a fresh block (refcount 1); otherwise the block is
reallocated in place when the power-of-two bucket changes — identity,
refcount (rewritten with the refcount `_copy_on_write` returned, equal to the
block's own refcount) and existing payload are preserved, so the model updates
the payload in place: grown slots are appended as `default`
(default-constructed / zero-filled / uninitialized in the source), shrinking
destroys the tail.  The stored length becomes `p_size`.  The allocator is
modeled as succeeding; its failure behavior is treated with
`grow_from_scratch_oom_detected`. -/
def resize {α : Type} [Inhabited α] (is32 : Bool) (esize : Nat) (h : Heap α)
    (hd : Option Nat) (psize : Int) : Heap α × Option Nat × Err :=
  if psize < 0 then (h, hd, Err.ERR_INVALID_PARAMETER)
  else
    let current := size h hd
    if psize = current then (h, hd, Err.OK)
    else if psize = 0 then (unref h hd, none, Err.OK)
    else
      let c := copy_on_write h hd
      match get_alloc_size_checked is32 esize psize.toNat with
      | none => (c.1, c.2.1, Err.ERR_OUT_OF_MEMORY)
      | some _ =>
        if current < psize then
          if current = 0 then
            let a := c.1.alloc ⟨1, List.replicate psize.toNat default⟩
            (a.1, some a.2, Err.OK)
          else
            match c.2.1 with
            | none => (c.1, none, Err.OK)
            | some p =>
              match c.1.lookup p with
              | none => (c.1, some p, Err.OK)
              | some s =>
                (c.1.update p
                  ⟨s.refcount,
                    s.data ++ List.replicate (psize.toNat - s.data.length) default⟩,
                  some p, Err.OK)
        else
          match c.2.1 with
          | none => (c.1, none, Err.OK)
          | some p =>
            match c.1.lookup p with
            | none => (c.1, some p, Err.OK)
            | some s =>
              (c.1.update p ⟨s.refcount, s.data.take psize.toNat⟩, some p, Err.OK)

/-- The shifting loop of `CowData<T>::insert` (lines 213-215):
`for (Size i = size() - 1; i > p_pos; i--) set(i, get(i - 1));`.
Fuel `n` is the remaining iteration count; iteration with fuel `k + 1` works
on index `i = pos + k + 1`, so fuel `size() - 1 - pos` runs `i` from
`size() - 1` down to `pos + 1` exactly as the source loop does. -/
def shiftLoop {α : Type} [Inhabited α] (pos : Int) :
    Nat → Heap α → Option Nat → Heap α × Option Nat
  | 0, h, hd => (h, hd)
  | n + 1, h, hd =>
    let r := set h hd (pos + ((n : Int) + 1)) (get h hd (pos + (n : Int)))
    shiftLoop pos n r.1 r.2

/-- `CowData<T>::insert` (lines 210-219): `ERR_FAIL_INDEX_V(p_pos, size() + 1,
ERR_INVALID_PARAMETER)`, then `resize(size() + 1)` (its result is discarded by
the source), the shifting loop over the re-read size, `set(p_pos, p_val)`,
return `OK`. -/
def insert {α : Type} [Inhabited α] (is32 : Bool) (esize : Nat) (h : Heap α)
    (hd : Option Nat) (pos : Int) (v : α) : Heap α × Option Nat × Err :=
  if pos < 0 ∨ size h hd + 1 ≤ pos then (h, hd, Err.ERR_INVALID_PARAMETER)
  else
    let r := resize is32 esize h hd (size h hd + 1)
    let r2 := shiftLoop pos (size r.1 r.2.1 - 1 - pos).toNat r.1 r.2.1
    let r3 := set r2.1 r2.2 pos v
    (r3.1, r3.2, Err.OK)

/-- The scanning loop of `CowData<T>::find` (lines 387-392), with fuel:
`findLoop h hd v i n` scans indices `i, i + 1, ...` for `n` steps. -/
def findLoop {α : Type} [DecidableEq α] [Inhabited α] (h : Heap α)
    (hd : Option Nat) (v : α) : Int → Nat → Int
  | _, 0 => -1
  | i, n + 1 => if get h hd i = v then i else findLoop h hd v (i + 1) n

/-- `CowData<T>::find` (lines 379-395): `-1` when `p_from < 0` or the buffer
is empty; otherwise scan `i = p_from` while `i < size()`. -/
def find {α : Type} [DecidableEq α] [Inhabited α] (h : Heap α) (hd : Option Nat)
    (v : α) (f : Int) : Int :=
  if f < 0 ∨ size h hd = 0 then -1
  else findLoop h hd v f (size h hd - f).toNat

/-- The backward scanning loop of `CowData<T>::rfind` (lines 408-413), with
fuel: `rfindLoop h hd v n` scans indices `n - 1, n - 2, ..., 0`. -/
def rfindLoop {α : Type} [DecidableEq α] [Inhabited α] (h : Heap α)
    (hd : Option Nat) (v : α) : Nat → Int
  | 0 => -1
  | n + 1 => if get h hd (n : Int) = v then (n : Int) else rfindLoop h hd v n

/-- `CowData<T>::rfind` (lines 397-414): a negative `p_from` is wrapped to
`s + p_from`; if the result (or a non-negative `p_from`) is outside
`[0, s - 1]` the start is reset to `s - 1`; then scan backward to 0. -/
def rfind {α : Type} [DecidableEq α] [Inhabited α] (h : Heap α) (hd : Option Nat)
    (v : α) (f : Int) : Int :=
  let s := size h hd
  let f1 := if f < 0 then s + f else f
  let f2 := if f1 < 0 ∨ s ≤ f1 then s - 1 else f1
  rfindLoop h hd v (f2 + 1).toNat

/-- `CowData<T>::_ref` (lines 432-448), the body of `operator=` (line 155) and
of the copy constructor (line 227): identical storage (including
self-assignment) returns immediately; otherwise `_unref` the destination,
null it, and adopt the source storage only if its `conditional_increment`
succeeds (returns a value > 0, impossible when the count already fell to 0).
`dst` is the destination's `_ptr`, `src` the source's; the returned handle is
the destination's new `_ptr`. -/
def ref {α : Type} (h : Heap α) (dst src : Option Nat) : Heap α × Option Nat :=
  if dst = src then (h, dst)
  else
    let h1 := unref h dst
    match src with
    | none => (h1, none)
    | some p =>
      match h1.lookup p with
      | none => (h1, none)
      | some s =>
        if 0 < s.refcount then (h1.update p ⟨s.refcount + 1, s.data⟩, some p)
        else (h1, none)

/-- The element sequence observed through a handle: what `size()` and the
in-range `get(i)` reads see. -/
def observe {α : Type} (h : Heap α) (hd : Option Nat) : List α :=
  match hd with
  | none => []
  | some p =>
    match h.lookup p with
    | none => []
    | some s => s.data

/-- Pure-list mirror of the shifting loop of `insert`, used to state its
effect: `shiftList d pos n` performs `d[pos + k + 1] = d[pos + k]` for
`k = n - 1, ..., 0` (highest index first). -/
def shiftList {α : Type} [Inhabited α] (d : List α) (pos : Nat) : Nat → List α
  | 0 => d
  | n + 1 => shiftList (d.set (pos + n + 1) (d.getD (pos + n) default)) pos n

/-- A one-block heap whose block is exclusively owned: `A = [1, 2, 3]` of the
scenario in the spec (§8). -/
def heapA : Heap Nat := ⟨[(0, ⟨1, [1, 2, 3]⟩)], 1⟩

/-- A one-block heap whose block is shared by two handles (refcount 2). -/
def heapShared : Heap Nat := ⟨[(0, ⟨2, [1, 2, 3]⟩)], 1⟩

/-- A one-block heap holding `[5]`, exclusively owned. -/
def heapOne : Heap Nat := ⟨[(0, ⟨1, [5]⟩)], 1⟩

/-- A one-block heap holding `[3, 7]`, exclusively owned. -/
def heapTwo : Heap Nat := ⟨[(0, ⟨1, [3, 7]⟩)], 1⟩

/-- The empty heap. -/
def heapEmpty : Heap Nat := ⟨[], 0⟩

/-- Invariant for the copy-then-mutate isolation argument: block `p` is live
with payload `l`, and whenever the mutating handle `hd` aliases `p`, the block
is shared (refcount at least 2), so the copy-on-write trigger clones it before
any write lands. -/
def Jinv {α : Type} (p : Nat) (l : List α) (h : Heap α) (hd : Option Nat) : Prop :=
  Wf h ∧ ∃ rc, 1 ≤ rc ∧ h.lookup p = some ⟨rc, l⟩ ∧ (hd = some p → 2 ≤ rc)

/-- The full observation a handle offers is intact: the element sequence is
`l`, `size()` is its length, and every in-range `get(i)` reads it. -/
def observedIntact {α : Type} [Inhabited α] (l : List α) (h : Heap α)
    (hd : Option Nat) : Prop :=
  observe h hd = l ∧ size h hd = (l.length : Int) ∧
    ∀ i : Int, 0 ≤ i → get h hd i = l.getD i.toNat default

end CowDataModel
namespace CowDataModel

/-! ### Arithmetic facts about `next_po2` and the checked allocation size -/

theorem shiftRight_le (x k : Nat) : x >>> k ≤ x := by
  rw [Nat.shiftRight_eq_div_pow]; exact Nat.div_le_self x (2 ^ k)

theorem orShift_lt {x m k : Nat} (hx : x < 2 ^ m) : orShift x k < 2 ^ m :=
  Nat.or_lt_two_pow hx (lt_of_le_of_lt (shiftRight_le x k) hx)

theorem po2Spread_lt {x m : Nat} (hx : x < 2 ^ m) : po2Spread x < 2 ^ m :=
  orShift_lt (orShift_lt (orShift_lt (orShift_lt (orShift_lt (orShift_lt hx)))))

/-- For byte counts up to `2 ^ 63` the rounded size does not wrap and is
positive. -/
theorem next_po2_ok {o : Nat} (h1 : 1 ≤ o) (h2 : o ≤ 2 ^ 63) :
    1 ≤ next_po2 o ∧ next_po2 o ≤ 2 ^ 63 := by
  have hx : o - 1 < 2 ^ 63 := by omega
  have hs : po2Spread (o - 1) < 2 ^ 63 := po2Spread_lt hx
  have hm : po2Spread (o - 1) + 1 < USIZE_MOD := by
    have : (2 : Nat) ^ 63 < 2 ^ 64 := by norm_num
    unfold USIZE_MOD; omega
  unfold next_po2
  rw [if_neg (by omega), Nat.mod_eq_of_lt hm]
  omega

theorem orShift_testBit (x k i : Nat) :
    (orShift x k).testBit i = (x.testBit i || x.testBit (k + i)) := by
  unfold orShift
  rw [Nat.testBit_or, Nat.testBit_shiftRight]

theorem stepOr {y : Nat} (k t : Nat) (htk : t + k ≤ 64)
    (hP : ∀ i, i < 64 → t ≤ i → y.testBit i = true) :
    ∀ i, i < 64 → t - k ≤ i → (orShift y k).testBit i = true := by
  intro i hi hlo
  rw [orShift_testBit]
  by_cases hc : t ≤ i
  · rw [hP i hi hc]; simp
  · have h1 : k + i < 64 := by omega
    have h2 : t ≤ k + i := by omega
    rw [hP (k + i) h1 h2]; simp

/-- When the top bit is set, the or-shift cascade saturates to all-ones:
this is exactly the case where `++x` wraps `next_po2` to 0. -/
theorem po2Spread_high {x : Nat} (hlo : 2 ^ 63 ≤ x) (hhi : x < 2 ^ 64) :
    po2Spread x = 2 ^ 64 - 1 := by
  have h63 : x.testBit 63 = true := by
    rw [Nat.testBit_to_div_mod]
    have hdiv : x / 2 ^ 63 = 1 := by
      apply Nat.div_eq_of_lt_le
      · simpa using hlo
      · have : (1 + 1) * 2 ^ 63 = 2 ^ 64 := by norm_num
        omega
    rw [hdiv]
    decide
  have q1 : ∀ i, i < 64 → 63 ≤ i → x.testBit i = true := by
    intro i h1 h2
    have : i = 63 := by omega
    subst this; exact h63
  have q2 := stepOr 1 63 (by omega) q1
  have q3 := stepOr 2 62 (by omega) (fun i h1 h2 => q2 i h1 (by omega))
  have q4 := stepOr 4 60 (by omega) (fun i h1 h2 => q3 i h1 (by omega))
  have q5 := stepOr 8 56 (by omega) (fun i h1 h2 => q4 i h1 (by omega))
  have q6 := stepOr 16 48 (by omega) (fun i h1 h2 => q5 i h1 (by omega))
  have q7 := stepOr 32 32 (by omega) (fun i h1 h2 => q6 i h1 (by omega))
  have hall : ∀ i, i < 64 → (po2Spread x).testBit i = true := by
    intro i hi
    exact q7 i hi (by omega)
  have hlt : po2Spread x < 2 ^ 64 := po2Spread_lt hhi
  apply Nat.eq_of_testBit_eq
  intro i
  by_cases hi : i < 64
  · rw [hall i hi, Nat.testBit_two_pow_sub_one]
    simp [hi]
  · have hb1 : (po2Spread x).testBit i = false := by
      apply Nat.testBit_lt_two_pow
      calc po2Spread x < 2 ^ 64 := hlt
        _ ≤ 2 ^ i := Nat.pow_le_pow_right (by norm_num) (by omega)
    have hb2 : ((2 : Nat) ^ 64 - 1).testBit i = false := by
      apply Nat.testBit_lt_two_pow
      have : (2 : Nat) ^ 64 - 1 < 2 ^ 64 := by norm_num
      calc (2 : Nat) ^ 64 - 1 < 2 ^ 64 := this
        _ ≤ 2 ^ i := Nat.pow_le_pow_right (by norm_num) (by omega)
    rw [hb1, hb2]

/-- Rounding a byte count in `(2 ^ 63, 2 ^ 64)` up to a power of two wraps
`next_po2` to 0. -/
theorem next_po2_high {o : Nat} (h1 : 2 ^ 63 < o) (h2 : o < 2 ^ 64) :
    next_po2 o = 0 := by
  unfold next_po2
  rw [if_neg (by omega), po2Spread_high (by omega) (by omega)]
  unfold USIZE_MOD
  norm_num

/-- The checked allocation size succeeds (on both build paths) whenever the
true byte count is positive and at most `2 ^ 63`. -/
theorem get_alloc_size_checked_ok (is32 : Bool) {esize n : Nat} (hn : 1 ≤ n)
    (he : 1 ≤ esize) (hb : n * esize ≤ 2 ^ 63) :
    get_alloc_size_checked is32 esize n = some (next_po2 (n * esize)) := by
  have ho : 1 ≤ n * esize := Nat.mul_le_mul hn he
  obtain ⟨hp1, hp2⟩ := next_po2_ok ho hb
  unfold get_alloc_size_checked
  rw [if_neg (by omega)]
  cases is32 with
  | true =>
    have hm : ¬ USIZE_MOD ≤ n * esize := by unfold USIZE_MOD; norm_num; omega
    have ha : ¬ USIZE_MOD ≤ n * esize + 32 := by unfold USIZE_MOD; norm_num; omega
    simp only [if_true, if_neg hm, if_neg ha, if_neg (by omega : ¬ next_po2 (n * esize) = 0)]
  | false =>
    have hmod : (n * esize) % USIZE_MOD = n * esize := by
      apply Nat.mod_eq_of_lt; unfold USIZE_MOD; norm_num; omega
    simp only [Bool.false_eq_true, if_false, get_alloc_size, hmod,
      if_neg (by omega : ¬ next_po2 (n * esize) = 0)]

end CowDataModel
namespace CowDataModel

/-! ### Heap infrastructure lemmas -/

variable {α : Type}

theorem blkLookup_update_self (l : List (Nat × Storage α)) (p : Nat) (s : Storage α) :
    blkLookup (blkUpdate l p s) p = (blkLookup l p).map (fun _ => s) := by
  induction l with
  | nil => simp [blkUpdate, blkLookup]
  | cons b bs ih =>
    by_cases hb : b.1 = p
    · simp [blkUpdate, blkLookup, hb]
    · simp [blkUpdate, blkLookup, hb, ih]

theorem blkLookup_update_ne (l : List (Nat × Storage α)) (p : Nat) (s : Storage α)
    {q : Nat} (hq : q ≠ p) :
    blkLookup (blkUpdate l p s) q = blkLookup l q := by
  induction l with
  | nil => simp [blkUpdate, blkLookup]
  | cons b bs ih =>
    by_cases hb : b.1 = p
    · have hbq : ¬ (p = q) := fun hc => hq hc.symm
      simp [blkUpdate, blkLookup, hb, hbq]
    · by_cases hb2 : b.1 = q
      · simp [blkUpdate, blkLookup, hb, hb2, hq]
      · simp [blkUpdate, blkLookup, hb, hb2, ih]

theorem blkLookup_free_self (l : List (Nat × Storage α)) (p : Nat) :
    blkLookup (blkFree l p) p = none := by
  induction l with
  | nil => simp [blkFree, blkLookup]
  | cons b bs ih =>
    by_cases hb : b.1 = p
    · simp [blkFree, hb, ih]
    · simp [blkFree, blkLookup, hb, ih]

theorem blkLookup_free_ne (l : List (Nat × Storage α)) (p : Nat) {q : Nat} (hq : q ≠ p) :
    blkLookup (blkFree l p) q = blkLookup l q := by
  induction l with
  | nil => simp [blkFree]
  | cons b bs ih =>
    by_cases hb : b.1 = p
    · have hbq : ¬ (p = q) := fun hc => hq hc.symm
      simp [blkFree, blkLookup, hb, hbq, ih]
    · simp [blkFree, blkLookup, hb, ih]

theorem blkLookup_mem {l : List (Nat × Storage α)} {p : Nat} {s : Storage α}
    (h : blkLookup l p = some s) : (p, s) ∈ l := by
  induction l with
  | nil => simp [blkLookup] at h
  | cons b bs ih =>
    obtain ⟨b1, b2⟩ := b
    by_cases hb : b1 = p
    · subst hb
      simp [blkLookup] at h
      subst h
      exact List.mem_cons_self _ _
    · simp only [blkLookup, if_neg hb] at h
      exact List.mem_cons_of_mem _ (ih h)

theorem mem_blkUpdate {l : List (Nat × Storage α)} {p : Nat} {s : Storage α}
    {b : Nat × Storage α} (h : b ∈ blkUpdate l p s) :
    b ∈ l ∨ (b = (p, s) ∧ ∃ s0, (p, s0) ∈ l) := by
  induction l with
  | nil => simp [blkUpdate] at h
  | cons c cs ih =>
    obtain ⟨c1, c2⟩ := c
    by_cases hc : c1 = p
    · subst hc
      simp only [blkUpdate, if_pos rfl] at h
      rcases List.mem_cons.1 h with h1 | h1
      · exact Or.inr ⟨h1, c2, List.mem_cons_self _ _⟩
      · exact Or.inl (List.mem_cons_of_mem _ h1)
    · simp only [blkUpdate, if_neg hc] at h
      rcases List.mem_cons.1 h with h1 | h1
      · exact Or.inl (by simp [h1])
      · rcases ih h1 with h2 | ⟨h2, s0, h3⟩
        · exact Or.inl (List.mem_cons_of_mem _ h2)
        · exact Or.inr ⟨h2, s0, List.mem_cons_of_mem _ h3⟩

theorem mem_blkFree {l : List (Nat × Storage α)} {p : Nat} {b : Nat × Storage α}
    (h : b ∈ blkFree l p) : b ∈ l := by
  induction l with
  | nil => simp [blkFree] at h
  | cons c cs ih =>
    by_cases hc : c.1 = p
    · simp only [blkFree, if_pos hc] at h
      exact List.mem_cons_of_mem _ (ih h)
    · simp only [blkFree, if_neg hc] at h
      rcases List.mem_cons.1 h with h1 | h1
      · exact List.mem_cons.2 (Or.inl h1)
      · exact List.mem_cons_of_mem _ (ih h1)

theorem Heap.lookup_update_self (h : Heap α) (p : Nat) (s : Storage α) :
    (h.update p s).lookup p = (h.lookup p).map (fun _ => s) :=
  blkLookup_update_self h.blocks p s

theorem Heap.lookup_update_ne (h : Heap α) (p : Nat) (s : Storage α) {q : Nat}
    (hq : q ≠ p) : (h.update p s).lookup q = h.lookup q :=
  blkLookup_update_ne h.blocks p s hq

theorem Heap.lookup_free_self (h : Heap α) (p : Nat) : (h.free p).lookup p = none :=
  blkLookup_free_self h.blocks p

theorem Heap.lookup_free_ne (h : Heap α) (p : Nat) {q : Nat} (hq : q ≠ p) :
    (h.free p).lookup q = h.lookup q :=
  blkLookup_free_ne h.blocks p hq

theorem Heap.lookup_alloc_self (h : Heap α) (s : Storage α) :
    (h.alloc s).1.lookup h.next = some s := by
  simp [Heap.alloc, Heap.lookup, blkLookup]

theorem Heap.lookup_alloc_ne (h : Heap α) (s : Storage α) {q : Nat}
    (hq : q ≠ h.next) : (h.alloc s).1.lookup q = h.lookup q := by
  have : ¬ (h.next = q) := fun hc => hq hc.symm
  simp [Heap.alloc, Heap.lookup, blkLookup, this]

theorem Heap.next_update (h : Heap α) (p : Nat) (s : Storage α) :
    (h.update p s).next = h.next := rfl

theorem Heap.next_free (h : Heap α) (p : Nat) : (h.free p).next = h.next := rfl

theorem Heap.next_alloc (h : Heap α) (s : Storage α) :
    (h.alloc s).1.next = h.next + 1 := rfl

theorem Wf.lookup_lt {h : Heap α} {p : Nat} {s : Storage α} (hwf : Wf h)
    (hl : h.lookup p = some s) : p < h.next :=
  (hwf _ (blkLookup_mem hl)).1

theorem Wf.lookup_refcount {h : Heap α} {p : Nat} {s : Storage α} (hwf : Wf h)
    (hl : h.lookup p = some s) : 1 ≤ s.refcount :=
  (hwf _ (blkLookup_mem hl)).2

theorem Wf.lookup_next {h : Heap α} (hwf : Wf h) : h.lookup h.next = none := by
  cases heq : h.lookup h.next with
  | none => rfl
  | some s => exact absurd (Wf.lookup_lt hwf heq) (lt_irrefl _)

theorem Wf.update {h : Heap α} {p : Nat} {s : Storage α} (hwf : Wf h)
    (hs : 1 ≤ s.refcount) : Wf (h.update p s) := by
  intro b hb
  rcases mem_blkUpdate hb with h1 | ⟨h1, s0, h2⟩
  · exact hwf b h1
  · subst h1
    exact ⟨(hwf _ h2).1, hs⟩

theorem Wf.free {h : Heap α} (hwf : Wf h) (p : Nat) : Wf (h.free p) :=
  fun b hb => hwf b (mem_blkFree hb)

theorem Wf.alloc {h : Heap α} {s : Storage α} (hwf : Wf h) (hs : 1 ≤ s.refcount) :
    Wf (h.alloc s).1 := by
  intro b hb
  rcases List.mem_cons.1 hb with h1 | h1
  · subst h1
    exact ⟨Nat.lt_succ_self _, hs⟩
  · exact ⟨Nat.lt_succ_of_lt (hwf b h1).1, (hwf b h1).2⟩

end CowDataModel
namespace CowDataModel

/-! ### Characterizations of the primitive operations -/

variable {α : Type}

theorem size_nonneg (h : Heap α) (hd : Option Nat) : 0 ≤ size h hd := by
  cases hd with
  | none => simp [size]
  | some p =>
    cases hl : h.lookup p with
    | none => simp [size, hl]
    | some s => simp [size, hl]

theorem size_none (h : Heap α) : size h none = 0 := rfl

theorem size_some {h : Heap α} {p : Nat} {s : Storage α} (hl : h.lookup p = some s) :
    size h (some p) = (s.data.length : Int) := by
  simp [size, hl]

theorem observe_none (h : Heap α) : observe h none = [] := rfl

theorem observe_some {h : Heap α} {p : Nat} {s : Storage α} (hl : h.lookup p = some s) :
    observe h (some p) = s.data := by
  simp [observe, hl]

theorem get_some [Inhabited α] {h : Heap α} {p : Nat} {s : Storage α}
    (hl : h.lookup p = some s) {i : Int} (h0 : 0 ≤ i) :
    get h (some p) i = s.data.getD i.toNat default := by
  simp [get, hl, h0]

theorem unref_none (h : Heap α) : unref h none = h := rfl

theorem unref_dec {h : Heap α} {p : Nat} {s : Storage α} (hl : h.lookup p = some s)
    (h2 : 2 ≤ s.refcount) :
    unref h (some p) = h.update p ⟨s.refcount - 1, s.data⟩ := by
  simp only [unref, hl]
  rw [if_pos (by omega)]

theorem unref_last {h : Heap α} {p : Nat} {s : Storage α} (hl : h.lookup p = some s)
    (h1 : s.refcount = 1) : unref h (some p) = h.free p := by
  simp only [unref, hl]
  rw [if_neg (by omega)]

theorem cow_none (h : Heap α) : copy_on_write h none = (h, none, 0) := rfl

theorem cow_owned {h : Heap α} {p : Nat} {s : Storage α} (hl : h.lookup p = some s)
    (h1 : s.refcount ≤ 1) : copy_on_write h (some p) = (h, some p, s.refcount) := by
  simp only [copy_on_write, hl]
  rw [if_neg (by omega)]

theorem cow_shared {h : Heap α} {p : Nat} {s : Storage α} (hwf : Wf h)
    (hl : h.lookup p = some s) (h2 : 2 ≤ s.refcount) :
    copy_on_write h (some p) =
      ((h.alloc ⟨1, s.data⟩).1.update p ⟨s.refcount - 1, s.data⟩, some h.next, 1) := by
  have hpn : p ≠ h.next := by
    have := Wf.lookup_lt hwf hl
    omega
  have hla : (h.alloc ⟨1, s.data⟩).1.lookup p = some s := by
    rw [Heap.lookup_alloc_ne h _ hpn]
    exact hl
  simp only [copy_on_write, hl]
  rw [if_pos (by omega), unref_dec hla h2]
  rfl

/-- After cloning, the original block keeps its payload with a decremented
refcount, the fresh block holds the same payload with refcount 1, all other
blocks are untouched, and the heap stays well-formed. -/
theorem cow_shared_state {h : Heap α} {p : Nat} {s : Storage α} (hwf : Wf h)
    (hl : h.lookup p = some s) (h2 : 2 ≤ s.refcount) :
    (copy_on_write h (some p)).1.lookup p = some ⟨s.refcount - 1, s.data⟩ ∧
    (copy_on_write h (some p)).1.lookup h.next = some ⟨1, s.data⟩ ∧
    (∀ q, q ≠ p → q ≠ h.next → (copy_on_write h (some p)).1.lookup q = h.lookup q) ∧
    Wf (copy_on_write h (some p)).1 ∧
    (copy_on_write h (some p)).1.next = h.next + 1 := by
  have hpn : p ≠ h.next := by
    have := Wf.lookup_lt hwf hl
    omega
  rw [cow_shared hwf hl h2]
  have hla : (h.alloc ⟨1, s.data⟩).1.lookup p = some s := by
    rw [Heap.lookup_alloc_ne h _ hpn]; exact hl
  refine ⟨?_, ?_, ?_, ?_, rfl⟩
  · rw [Heap.lookup_update_self, hla]
    rfl
  · rw [Heap.lookup_update_ne _ _ _ (Ne.symm hpn), Heap.lookup_alloc_self]
  · intro q hqp hqn
    rw [Heap.lookup_update_ne _ _ _ hqp, Heap.lookup_alloc_ne h _ hqn]
  · exact Wf.update (Wf.alloc hwf (le_refl 1)) (by show 1 ≤ s.refcount - 1; omega)

theorem set_oob {h : Heap α} {hd : Option Nat} {i : Int} {v : α}
    (hc : i < 0 ∨ size h hd ≤ i) : set h hd i v = (h, hd) := by
  simp only [set]
  rw [if_pos hc]

theorem set_owned {h : Heap α} {p : Nat} {s : Storage α} {i : Int} {v : α}
    (hl : h.lookup p = some s) (h1 : s.refcount = 1) (h0 : 0 ≤ i)
    (hlt : i < (s.data.length : Int)) :
    set h (some p) i v = (h.update p ⟨1, s.data.set i.toNat v⟩, some p) := by
  have hsz : size h (some p) = (s.data.length : Int) := size_some hl
  simp only [set]
  rw [if_neg (by omega), cow_owned hl (by omega)]
  simp only [hl, h1]

theorem set_shared {h : Heap α} {p : Nat} {s : Storage α} {i : Int} {v : α}
    (hwf : Wf h) (hl : h.lookup p = some s) (h2 : 2 ≤ s.refcount) (h0 : 0 ≤ i)
    (hlt : i < (s.data.length : Int)) :
    set h (some p) i v =
      (((h.alloc ⟨1, s.data⟩).1.update p ⟨s.refcount - 1, s.data⟩).update h.next
          ⟨1, s.data.set i.toNat v⟩,
        some h.next) := by
  have hsz : size h (some p) = (s.data.length : Int) := size_some hl
  have hpn : p ≠ h.next := by
    have := Wf.lookup_lt hwf hl
    omega
  simp only [set]
  rw [if_neg (by omega), cow_shared hwf hl h2]
  have hln : ((h.alloc ⟨1, s.data⟩).1.update p ⟨s.refcount - 1, s.data⟩).lookup h.next
      = some ⟨1, s.data⟩ := by
    rw [Heap.lookup_update_ne _ _ _ (Ne.symm hpn), Heap.lookup_alloc_self]
  simp only [hln]

end CowDataModel
namespace CowDataModel

/-! ### Characterizations of `resize` -/

variable {α : Type}

theorem resize_neg [Inhabited α] {is32 : Bool} {esize : Nat} {h : Heap α}
    {hd : Option Nat} {psize : Int} (hn : psize < 0) :
    resize is32 esize h hd psize = (h, hd, Err.ERR_INVALID_PARAMETER) := by
  simp only [resize]
  rw [if_pos hn]

theorem resize_same [Inhabited α] {is32 : Bool} {esize : Nat} {h : Heap α}
    {hd : Option Nat} {psize : Int} (hn : psize = size h hd) :
    resize is32 esize h hd psize = (h, hd, Err.OK) := by
  have h0 : ¬ (psize < 0) := by
    have := size_nonneg h hd
    omega
  simp only [resize]
  rw [if_neg h0, if_pos hn]

theorem resize_zero [Inhabited α] {is32 : Bool} {esize : Nat} {h : Heap α}
    {hd : Option Nat} (hnz : size h hd ≠ 0) :
    resize is32 esize h hd 0 = (unref h hd, none, Err.OK) := by
  simp only [resize]
  rw [if_neg (by omega), if_neg (fun hc => hnz hc.symm)]
  simp

theorem resize_oom [Inhabited α] {is32 : Bool} {esize : Nat} {h : Heap α}
    {hd : Option Nat} {psize : Int} (hp : 0 < psize) (hne : psize ≠ size h hd)
    (hchk : get_alloc_size_checked is32 esize psize.toNat = none) :
    resize is32 esize h hd psize =
      ((copy_on_write h hd).1, (copy_on_write h hd).2.1, Err.ERR_OUT_OF_MEMORY) := by
  simp only [resize]
  rw [if_neg (by omega), if_neg hne, if_neg (by omega)]
  simp only [hchk]

theorem resize_grow_fresh [Inhabited α] {is32 : Bool} {esize : Nat} {h : Heap α}
    {psize : Int} {a : Nat} (hp : 0 < psize)
    (hchk : get_alloc_size_checked is32 esize psize.toNat = some a) :
    resize is32 esize h none psize =
      ((h.alloc ⟨1, List.replicate psize.toNat default⟩).1, some h.next, Err.OK) := by
  simp only [resize, size_none, cow_none, hchk]
  rw [if_neg (by omega), if_neg (by omega), if_neg (by omega), if_pos hp]
  simp [Heap.alloc]

theorem resize_grow_inplace [Inhabited α] {is32 : Bool} {esize : Nat} {h : Heap α}
    {p : Nat} {s : Storage α} {psize : Int} {a : Nat} (hl : h.lookup p = some s)
    (h1 : s.refcount = 1) (hlen : 0 < s.data.length)
    (hgt : (s.data.length : Int) < psize)
    (hchk : get_alloc_size_checked is32 esize psize.toNat = some a) :
    resize is32 esize h (some p) psize =
      (h.update p ⟨1, s.data ++ List.replicate (psize.toNat - s.data.length) default⟩,
        some p, Err.OK) := by
  have hsz : size h (some p) = (s.data.length : Int) := size_some hl
  simp only [resize, hsz, cow_owned hl (by omega), hchk]
  rw [if_neg (by omega), if_neg (by omega), if_neg (by omega), if_pos hgt,
    if_neg (by omega)]
  simp only [hl, h1]

theorem resize_grow_shared [Inhabited α] {is32 : Bool} {esize : Nat} {h : Heap α}
    {p : Nat} {s : Storage α} {psize : Int} {a : Nat} (hwf : Wf h)
    (hl : h.lookup p = some s) (h2 : 2 ≤ s.refcount) (hlen : 0 < s.data.length)
    (hgt : (s.data.length : Int) < psize)
    (hchk : get_alloc_size_checked is32 esize psize.toNat = some a) :
    resize is32 esize h (some p) psize =
      (((h.alloc ⟨1, s.data⟩).1.update p ⟨s.refcount - 1, s.data⟩).update h.next
          ⟨1, s.data ++ List.replicate (psize.toNat - s.data.length) default⟩,
        some h.next, Err.OK) := by
  have hsz : size h (some p) = (s.data.length : Int) := size_some hl
  have hpn : p ≠ h.next := by
    have := Wf.lookup_lt hwf hl
    omega
  have hln : ((h.alloc ⟨1, s.data⟩).1.update p ⟨s.refcount - 1, s.data⟩).lookup h.next
      = some ⟨1, s.data⟩ := by
    rw [Heap.lookup_update_ne _ _ _ (Ne.symm hpn), Heap.lookup_alloc_self]
  simp only [resize, hsz, cow_shared hwf hl h2, hchk]
  rw [if_neg (by omega), if_neg (by omega), if_neg (by omega), if_pos hgt,
    if_neg (by omega)]
  simp only [hln]

theorem resize_shrink_inplace [Inhabited α] {is32 : Bool} {esize : Nat} {h : Heap α}
    {p : Nat} {s : Storage α} {psize : Int} {a : Nat} (hl : h.lookup p = some s)
    (h1 : s.refcount = 1) (hp : 0 < psize) (hlt : psize < (s.data.length : Int))
    (hchk : get_alloc_size_checked is32 esize psize.toNat = some a) :
    resize is32 esize h (some p) psize =
      (h.update p ⟨1, s.data.take psize.toNat⟩, some p, Err.OK) := by
  have hsz : size h (some p) = (s.data.length : Int) := size_some hl
  simp only [resize, hsz, cow_owned hl (by omega), hchk]
  rw [if_neg (by omega), if_neg (by omega), if_neg (by omega), if_neg (by omega)]
  simp only [hl, h1]

theorem resize_shrink_shared [Inhabited α] {is32 : Bool} {esize : Nat} {h : Heap α}
    {p : Nat} {s : Storage α} {psize : Int} {a : Nat} (hwf : Wf h)
    (hl : h.lookup p = some s) (h2 : 2 ≤ s.refcount) (hp : 0 < psize)
    (hlt : psize < (s.data.length : Int))
    (hchk : get_alloc_size_checked is32 esize psize.toNat = some a) :
    resize is32 esize h (some p) psize =
      (((h.alloc ⟨1, s.data⟩).1.update p ⟨s.refcount - 1, s.data⟩).update h.next
          ⟨1, s.data.take psize.toNat⟩,
        some h.next, Err.OK) := by
  have hsz : size h (some p) = (s.data.length : Int) := size_some hl
  have hpn : p ≠ h.next := by
    have := Wf.lookup_lt hwf hl
    omega
  have hln : ((h.alloc ⟨1, s.data⟩).1.update p ⟨s.refcount - 1, s.data⟩).lookup h.next
      = some ⟨1, s.data⟩ := by
    rw [Heap.lookup_update_ne _ _ _ (Ne.symm hpn), Heap.lookup_alloc_self]
  simp only [resize, hsz, cow_shared hwf hl h2, hchk]
  rw [if_neg (by omega), if_neg (by omega), if_neg (by omega), if_neg (by omega)]
  simp only [hln]

end CowDataModel
namespace CowDataModel

/-! ### The shifting loop of `insert` -/

variable {α : Type}

theorem blkUpdate_lookup_self_eq {l : List (Nat × Storage α)} {p : Nat} {s : Storage α}
    (hl : blkLookup l p = some s) : blkUpdate l p s = l := by
  induction l with
  | nil => rfl
  | cons b bs ih =>
    obtain ⟨b1, b2⟩ := b
    by_cases hb : b1 = p
    · simp only [blkLookup, if_pos hb] at hl
      have hs := Option.some.inj hl
      simp only [blkUpdate, if_pos hb]
      rw [← hb, ← hs]
    · simp only [blkLookup, if_neg hb] at hl
      simp only [blkUpdate, if_neg hb]
      rw [ih hl]

theorem blkUpdate_blkUpdate (l : List (Nat × Storage α)) (p : Nat) (s t : Storage α) :
    blkUpdate (blkUpdate l p s) p t = blkUpdate l p t := by
  induction l with
  | nil => simp [blkUpdate]
  | cons b bs ih =>
    by_cases hb : b.1 = p
    · simp [blkUpdate, hb]
    · simp [blkUpdate, hb, ih]

theorem Heap.update_self {h : Heap α} {p : Nat} {s : Storage α}
    (hl : h.lookup p = some s) : h.update p s = h := by
  obtain ⟨blocks, nx⟩ := h
  simp only [Heap.update, Heap.mk.injEq, and_true]
  exact blkUpdate_lookup_self_eq hl

theorem Heap.update_update (h : Heap α) (p : Nat) (s t : Storage α) :
    (h.update p s).update p t = h.update p t := by
  simp only [Heap.update, Heap.mk.injEq, and_true]
  exact blkUpdate_blkUpdate h.blocks p s t

theorem shiftList_length [Inhabited α] :
    ∀ (n : Nat) (d : List α) (pos : Nat), (shiftList d pos n).length = d.length := by
  intro n
  induction n with
  | zero => intro d pos; rfl
  | succ n ih =>
    intro d pos
    simp only [shiftList]
    rw [ih]
    exact List.length_set d _ _

theorem shiftList_getElem [Inhabited α] :
    ∀ (n : Nat) (d : List α) (pos : Nat), pos + n < d.length →
      ∀ j, (shiftList d pos n)[j]? =
        if pos + 1 ≤ j ∧ j ≤ pos + n then d[j - 1]? else d[j]? := by
  intro n
  induction n with
  | zero =>
    intro d pos _ j
    rw [if_neg (by omega)]
    rfl
  | succ n ih =>
    intro d pos hlen j
    have hw : pos + n + 1 < d.length := by omega
    have hr : pos + n < d.length := by omega
    have hval : d[pos + n]? = some (d.getD (pos + n) default) := by
      rw [List.getElem?_eq_getElem hr, List.getD_eq_getElem d default hr]
    have hlen2 : pos + n < (d.set (pos + n + 1) (d.getD (pos + n) default)).length := by
      rw [List.length_set]; omega
    simp only [shiftList]
    rw [ih _ pos hlen2 j]
    by_cases hj1 : pos + 1 ≤ j ∧ j ≤ pos + n
    · rw [if_pos hj1, if_pos (by omega)]
      exact List.getElem?_set_ne (by omega)
    · rw [if_neg hj1]
      by_cases hj2 : j = pos + n + 1
      · subst hj2
        rw [if_pos (by omega)]
        rw [List.getElem?_set_eq_of_lt _ hw]
        simp only [Nat.add_sub_cancel, hval]
      · rw [if_neg (by omega)]
        exact List.getElem?_set_ne (fun hc => hj2 (by omega))

/-- The source loop `for (i = size - 1; i > pos; i--) set(i, get(i - 1))` on an
exclusively owned block performs exactly the list-level shift. -/
theorem shiftLoop_owned [Inhabited α] :
    ∀ (n : Nat) (h : Heap α) (q : Nat) (d : List α) (posN : Nat),
      h.lookup q = some ⟨1, d⟩ → posN + n < d.length →
      shiftLoop (posN : Int) n h (some q) =
        (h.update q ⟨1, shiftList d posN n⟩, some q) := by
  intro n
  induction n with
  | zero =>
    intro h q d posN hlq _
    simp only [shiftLoop, shiftList]
    rw [Heap.update_self hlq]
  | succ n ih =>
    intro h q d posN hlq hlen
    have hidx : ((posN : Int) + ((n : Int) + 1)).toNat = posN + n + 1 := by omega
    have hcast : ((posN : Int) + (n : Int)).toNat = posN + n := by omega
    have hget : get h (some q) ((posN : Int) + (n : Int)) = d.getD (posN + n) default := by
      rw [get_some hlq (by omega), hcast]
    have hset : set h (some q) ((posN : Int) + ((n : Int) + 1)) (d.getD (posN + n) default) =
        (h.update q ⟨1, d.set (posN + n + 1) (d.getD (posN + n) default)⟩, some q) := by
      rw [set_owned hlq rfl (by omega) (by push_cast; omega)]
      rw [hidx]
    have hlq2 : (h.update q ⟨1, d.set (posN + n + 1) (d.getD (posN + n) default)⟩).lookup q
        = some ⟨1, d.set (posN + n + 1) (d.getD (posN + n) default)⟩ := by
      rw [Heap.lookup_update_self, hlq]
      rfl
    simp only [shiftLoop, hget, hset]
    rw [ih _ q _ posN hlq2 (by rw [List.length_set]; omega)]
    rw [Heap.update_update]
    rfl

/-- Effect of the whole shifted write sequence plus the final `set(pos, v)` of
`insert`, on an exclusively owned block. -/
theorem insert_tail [Inhabited α] {h0 : Heap α} {q : Nat} {d : List α} {posN : Nat}
    (hlq : h0.lookup q = some ⟨1, d⟩) (hlen : posN < d.length) (v : α) :
    set (shiftLoop (posN : Int) (d.length - 1 - posN) h0 (some q)).1
        (shiftLoop (posN : Int) (d.length - 1 - posN) h0 (some q)).2 (posN : Int) v =
      (h0.update q ⟨1, (shiftList d posN (d.length - 1 - posN)).set posN v⟩, some q) := by
  rw [shiftLoop_owned _ h0 q d posN hlq (by omega)]
  have hlq2 : (h0.update q ⟨1, shiftList d posN (d.length - 1 - posN)⟩).lookup q
      = some ⟨1, shiftList d posN (d.length - 1 - posN)⟩ := by
    rw [Heap.lookup_update_self, hlq]
    rfl
  have hlen2 : ((posN : Int)) < (((shiftList d posN (d.length - 1 - posN)).length : Nat) : Int) := by
    rw [shiftList_length]
    omega
  rw [set_owned hlq2 rfl (by omega) hlen2]
  rw [Heap.update_update]
  have : ((posN : Int)).toNat = posN := by omega
  rw [this]

/-- The final payload `insert` produces, characterized element-wise. -/
theorem insert_final_getElem [Inhabited α] (l : List α) (posN : Nat)
    (hpos : posN ≤ l.length) (v : α) :
    ((shiftList (l ++ [default]) posN (l.length - posN)).set posN v).length = l.length + 1 ∧
    ((shiftList (l ++ [default]) posN (l.length - posN)).set posN v)[posN]? = some v ∧
    (∀ k, k < posN →
      ((shiftList (l ++ [default]) posN (l.length - posN)).set posN v)[k]? = l[k]?) ∧
    (∀ k, posN ≤ k → k < l.length →
      ((shiftList (l ++ [default]) posN (l.length - posN)).set posN v)[k + 1]? = l[k]?) := by
  have hdlen : (l ++ [default]).length = l.length + 1 := by simp
  have hsh : posN + (l.length - posN) < (l ++ [default]).length := by
    rw [hdlen]; omega
  have hshlen : (shiftList (l ++ [default]) posN (l.length - posN)).length = l.length + 1 := by
    rw [shiftList_length, hdlen]
  refine ⟨by rw [List.length_set, hshlen], ?_, ?_, ?_⟩
  · rw [List.getElem?_set_eq_of_lt _ (by rw [hshlen]; omega)]
  · intro k hk
    rw [List.getElem?_set_ne (by omega)]
    rw [shiftList_getElem _ _ _ hsh k, if_neg (by omega)]
    exact List.getElem?_append_left (by omega)
  · intro k hk1 hk2
    rw [List.getElem?_set_ne (by omega)]
    rw [shiftList_getElem _ _ _ hsh (k + 1), if_pos (by omega)]
    simp only [Nat.add_sub_cancel]
    exact List.getElem?_append_left (by omega)

end CowDataModel
namespace CowDataModel

/-! ### The scanning loops of `find` and `rfind` -/

variable {α : Type}

theorem findLoop_spec [DecidableEq α] [Inhabited α] (h : Heap α) (hd : Option Nat)
    (v : α) :
    ∀ (n : Nat) (i : Int), 0 ≤ i →
      (findLoop h hd v i n = -1 ∧
        ∀ k : Nat, i.toNat ≤ k → k < i.toNat + n → get h hd (k : Int) ≠ v) ∨
      (∃ j : Nat, findLoop h hd v i n = (j : Int) ∧ i.toNat ≤ j ∧ j < i.toNat + n ∧
        get h hd (j : Int) = v ∧
        ∀ k : Nat, i.toNat ≤ k → k < j → get h hd (k : Int) ≠ v) := by
  intro n
  induction n with
  | zero =>
    intro i h0
    left
    exact ⟨rfl, fun k hk1 hk2 => absurd (by omega : k < k) (lt_irrefl k)⟩
  | succ n ih =>
    intro i h0
    have hcast : ((i.toNat : Nat) : Int) = i := Int.toNat_of_nonneg h0
    simp only [findLoop]
    by_cases hv : get h hd i = v
    · right
      refine ⟨i.toNat, by rw [if_pos hv, hcast], le_refl _, by omega, ?_, ?_⟩
      · rw [hcast]; exact hv
      · intro k hk1 hk2
        exact absurd (by omega : k < k) (lt_irrefl k)
    · rw [if_neg hv]
      rcases ih (i + 1) (by omega) with ⟨heq, hall⟩ | ⟨j, heq, hj1, hj2, hjv, hmin⟩
      · left
        refine ⟨heq, ?_⟩
        intro k hk1 hk2
        by_cases hk : k = i.toNat
        · subst hk
          rw [hcast]
          exact hv
        · exact hall k (by omega) (by omega)
      · right
        refine ⟨j, heq, by omega, by omega, hjv, ?_⟩
        intro k hk1 hk2
        by_cases hk : k = i.toNat
        · subst hk
          rw [hcast]
          exact hv
        · exact hmin k (by omega) hk2
  
theorem rfindLoop_spec [DecidableEq α] [Inhabited α] (h : Heap α) (hd : Option Nat)
    (v : α) :
    ∀ n : Nat,
      (rfindLoop h hd v n = -1 ∧ ∀ k : Nat, k < n → get h hd (k : Int) ≠ v) ∨
      (∃ j : Nat, rfindLoop h hd v n = (j : Int) ∧ j < n ∧ get h hd (j : Int) = v ∧
        ∀ k : Nat, j < k → k < n → get h hd (k : Int) ≠ v) := by
  intro n
  induction n with
  | zero =>
    left
    exact ⟨rfl, fun k hk => absurd hk (by omega)⟩
  | succ n ih =>
    simp only [rfindLoop]
    by_cases hv : get h hd (n : Int) = v
    · right
      exact ⟨n, by rw [if_pos hv], Nat.lt_succ_self n, hv,
        fun k hk1 hk2 => absurd (by omega : k < k) (lt_irrefl k)⟩
    · rw [if_neg hv]
      rcases ih with ⟨heq, hall⟩ | ⟨j, heq, hj, hjv, hmax⟩
      · left
        refine ⟨heq, fun k hk => ?_⟩
        by_cases hkn : k = n
        · subst hkn; exact hv
        · exact hall k (by omega)
      · right
        refine ⟨j, heq, by omega, hjv, fun k hk1 hk2 => ?_⟩
        by_cases hkn : k = n
        · subst hkn; exact hv
        · exact hmax k hk1 (by omega)

end CowDataModel
namespace CowDataModel

/-! ### Preservation of block `p` under mutations through other or shared
handles (the frame part of copy-then-mutate isolation) -/

variable {α : Type}

theorem Jinv_unref {p : Nat} {l : List α} {h : Heap α} {hd : Option Nat}
    (hJ : Jinv p l h hd) : Jinv p l (unref h hd) none := by
  obtain ⟨hwf, rc, hrc, hlp, himp⟩ := hJ
  cases hd with
  | none => exact ⟨hwf, rc, hrc, hlp, by simp⟩
  | some q =>
    cases hlq : h.lookup q with
    | none =>
      simp only [unref, hlq]
      exact ⟨hwf, rc, hrc, hlp, by simp⟩
    | some s =>
      by_cases hsh : 2 ≤ s.refcount
      · rw [unref_dec hlq hsh]
        by_cases hqp : q = p
        · subst hqp
          rw [hlp] at hlq
          obtain rfl := Option.some.inj hlq
          have hsh2 : 2 ≤ rc := hsh
          refine ⟨Wf.update hwf (by show 1 ≤ rc - 1; omega), rc - 1,
            by omega, ?_, by simp⟩
          rw [Heap.lookup_update_self, hlp]
          rfl
        · refine ⟨Wf.update hwf (by show 1 ≤ s.refcount - 1; omega), rc, hrc, ?_, by simp⟩
          rw [Heap.lookup_update_ne _ _ _ (fun hc : p = q => hqp hc.symm)]
          exact hlp
      · have h1 : s.refcount = 1 := by
          have := Wf.lookup_refcount hwf hlq
          omega
        have hqp : q ≠ p := by
          intro hc
          subst hc
          rw [hlp] at hlq
          obtain rfl := Option.some.inj hlq
          have h2 : 2 ≤ rc := himp rfl
          have h3 : rc = 1 := h1
          omega
        rw [unref_last hlq h1]
        refine ⟨Wf.free hwf q, rc, hrc, ?_, by simp⟩
        rw [Heap.lookup_free_ne _ _ (fun hc : p = q => hqp hc.symm)]
        exact hlp

theorem Jinv_cow {p : Nat} {l : List α} {h : Heap α} {hd : Option Nat}
    (hJ : Jinv p l h hd) :
    Jinv p l (copy_on_write h hd).1 (copy_on_write h hd).2.1 ∧
      (copy_on_write h hd).2.1 ≠ some p := by
  obtain ⟨hwf, rc, hrc, hlp, himp⟩ := hJ
  cases hd with
  | none =>
    rw [cow_none]
    exact ⟨⟨hwf, rc, hrc, hlp, by simp⟩, by simp⟩
  | some q =>
    cases hlq : h.lookup q with
    | none =>
      have hqp : q ≠ p := by
        intro hc
        subst hc
        rw [hlp] at hlq
        cases hlq
      have hc : copy_on_write h (some q) = (h, some q, 0) := by
        simp only [copy_on_write, hlq]
      rw [hc]
      exact ⟨⟨hwf, rc, hrc, hlp, fun hcc => absurd (Option.some.inj hcc) hqp⟩,
        fun hcc => hqp (Option.some.inj hcc)⟩
    | some s =>
      by_cases hsh : 2 ≤ s.refcount
      · obtain ⟨hp1, hn1, hother, hwf1, _⟩ := cow_shared_state hwf hlq hsh
        have hhd1 : (copy_on_write h (some q)).2.1 = some h.next := by
          rw [cow_shared hwf hlq hsh]
        have hpn : p ≠ h.next := by
          have := Wf.lookup_lt hwf hlp
          omega
        by_cases hqp : q = p
        · subst hqp
          rw [hlp] at hlq
          obtain rfl := Option.some.inj hlq
          have h2rc : 2 ≤ rc := himp rfl
          refine ⟨⟨hwf1, rc - 1, by omega, hp1, ?_⟩, ?_⟩
          · rw [hhd1]
            exact fun hcc => absurd (Option.some.inj hcc).symm hpn
          · rw [hhd1]
            exact fun hcc => hpn (Option.some.inj hcc).symm
        · refine ⟨⟨hwf1, rc, hrc, ?_, ?_⟩, ?_⟩
          · rw [hother p (fun hc : p = q => hqp hc.symm) hpn]
            exact hlp
          · rw [hhd1]
            exact fun hcc => absurd (Option.some.inj hcc).symm hpn
          · rw [hhd1]
            exact fun hcc => hpn (Option.some.inj hcc).symm
      · have hqp : q ≠ p := by
          intro hc
          subst hc
          rw [hlp] at hlq
          obtain rfl := Option.some.inj hlq
          exact hsh (himp rfl)
        rw [cow_owned hlq (by omega)]
        exact ⟨⟨hwf, rc, hrc, hlp, fun hcc => absurd (Option.some.inj hcc) hqp⟩,
          fun hcc => hqp (Option.some.inj hcc)⟩

theorem Jinv_set [Inhabited α] {p : Nat} {l : List α} {h : Heap α} {hd : Option Nat}
    (hJ : Jinv p l h hd) (i : Int) (v : α) :
    Jinv p l (set h hd i v).1 (set h hd i v).2 := by
  by_cases hoob : i < 0 ∨ size h hd ≤ i
  · rw [set_oob hoob]
    exact hJ
  · push_neg at hoob
    obtain ⟨h0, hi⟩ := hoob
    obtain ⟨hwf, rc, hrc, hlp, himp⟩ := hJ
    cases hd with
    | none =>
      rw [size_none] at hi
      omega
    | some q =>
      cases hlq : h.lookup q with
      | none =>
        rw [size, hlq] at hi
        simp at hi
        omega
      | some s =>
        have hilt : i < (s.data.length : Int) := by
          rw [size_some hlq] at hi
          exact hi
        have hpn : p ≠ h.next := by
          have := Wf.lookup_lt hwf hlp
          omega
        by_cases hsh : 2 ≤ s.refcount
        · rw [set_shared hwf hlq hsh h0 hilt]
          have hwfA : Wf (((h.alloc ⟨1, s.data⟩).1.update q
              ⟨s.refcount - 1, s.data⟩).update h.next ⟨1, s.data.set i.toNat v⟩) :=
            Wf.update (Wf.update (Wf.alloc hwf (le_refl 1))
              (by show 1 ≤ s.refcount - 1; omega)) (le_refl 1)
          by_cases hqp : q = p
          · subst hqp
            rw [hlp] at hlq
            obtain rfl := Option.some.inj hlq
            have hsh2 : 2 ≤ rc := hsh
            refine ⟨hwfA, rc - 1, by omega, ?_, ?_⟩
            · rw [Heap.lookup_update_ne _ _ _ hpn, Heap.lookup_update_self,
                Heap.lookup_alloc_ne h _ hpn, hlp]
              rfl
            · exact fun hcc => absurd (Option.some.inj hcc).symm hpn
          · refine ⟨hwfA, rc, hrc, ?_, ?_⟩
            · rw [Heap.lookup_update_ne _ _ _ hpn,
                Heap.lookup_update_ne _ _ _ (fun hc : p = q => hqp hc.symm),
                Heap.lookup_alloc_ne h _ hpn]
              exact hlp
            · exact fun hcc => absurd (Option.some.inj hcc).symm hpn
        · have h1 : s.refcount = 1 := by
            have := Wf.lookup_refcount hwf hlq
            omega
          have hqp : q ≠ p := by
            intro hc
            subst hc
            rw [hlp] at hlq
            obtain rfl := Option.some.inj hlq
            have h2 : 2 ≤ rc := himp rfl
            have h3 : rc = 1 := h1
            omega
          rw [set_owned hlq h1 h0 hilt]
          refine ⟨Wf.update hwf (le_refl 1), rc, hrc, ?_, ?_⟩
          · rw [Heap.lookup_update_ne _ _ _ (fun hc : p = q => hqp hc.symm)]
            exact hlp
          · exact fun hcc => absurd (Option.some.inj hcc) hqp

theorem Jinv_resize [Inhabited α] {p : Nat} {l : List α} {h : Heap α}
    {hd : Option Nat} (hJ : Jinv p l h hd) (is32 : Bool) (esize : Nat) (n : Int) :
    Jinv p l (resize is32 esize h hd n).1 (resize is32 esize h hd n).2.1 := by
  by_cases hneg : n < 0
  · rw [resize_neg hneg]
    exact hJ
  by_cases hsame : n = size h hd
  · rw [resize_same hsame]
    exact hJ
  by_cases hzero : n = 0
  · subst hzero
    rw [resize_zero (fun hc => hsame hc.symm)]
    exact Jinv_unref hJ
  · obtain ⟨JC, hnep⟩ := Jinv_cow hJ
    obtain ⟨hwf1, rc1, hrc1, hlp1, _⟩ := JC
    simp only [resize]
    rw [if_neg hneg, if_neg hsame, if_neg hzero]
    cases hchk : get_alloc_size_checked is32 esize n.toNat with
    | none =>
      simp only [hchk]
      exact ⟨hwf1, rc1, hrc1, hlp1, fun hcc => absurd hcc hnep⟩
    | some a =>
      simp only [hchk]
      have hbranch : ∀ (d : Storage α → List α),
          Jinv p l
            (match (copy_on_write h hd).2.1 with
              | none => ((copy_on_write h hd).1, none, Err.OK)
              | some q =>
                match (copy_on_write h hd).1.lookup q with
                | none => ((copy_on_write h hd).1, some q, Err.OK)
                | some s => ((copy_on_write h hd).1.update q ⟨s.refcount, d s⟩,
                    some q, Err.OK)).1
            (match (copy_on_write h hd).2.1 with
              | none => ((copy_on_write h hd).1, none, Err.OK)
              | some q =>
                match (copy_on_write h hd).1.lookup q with
                | none => ((copy_on_write h hd).1, some q, Err.OK)
                | some s => ((copy_on_write h hd).1.update q ⟨s.refcount, d s⟩,
                    some q, Err.OK)).2.1 := by
        intro d
        cases hhd1 : (copy_on_write h hd).2.1 with
        | none =>
          simp only
          exact ⟨hwf1, rc1, hrc1, hlp1, by simp⟩
        | some q =>
          have hqp : q ≠ p := fun hc => hnep (by rw [hhd1, hc])
          simp only
          cases hlq1 : (copy_on_write h hd).1.lookup q with
          | none =>
            simp only
            exact ⟨hwf1, rc1, hrc1, hlp1,
              fun hcc => absurd (Option.some.inj hcc) hqp⟩
          | some s1 =>
            simp only
            refine ⟨Wf.update hwf1 (show 1 ≤ s1.refcount from
              Wf.lookup_refcount hwf1 hlq1), rc1, hrc1, ?_,
              fun hcc => absurd (Option.some.inj hcc) hqp⟩
            rw [Heap.lookup_update_ne _ _ _ (fun hc : p = q => hqp hc.symm)]
            exact hlp1
      by_cases hlt : size h hd < n
      · rw [if_pos hlt]
        by_cases hz : size h hd = 0
        · rw [if_pos hz]
          have hpn1 : p ≠ (copy_on_write h hd).1.next := by
            have := Wf.lookup_lt hwf1 hlp1
            omega
          refine ⟨Wf.alloc hwf1 (le_refl 1), rc1, hrc1, ?_, ?_⟩
          · rw [Heap.lookup_alloc_ne _ _ hpn1]
            exact hlp1
          · exact fun hcc => absurd (Option.some.inj hcc).symm hpn1
        · rw [if_neg hz]
          exact hbranch (fun s => s.data ++ List.replicate (n.toNat - s.data.length) default)
      · rw [if_neg hlt]
        exact hbranch (fun s => s.data.take n.toNat)

theorem Jinv_shiftLoop [Inhabited α] {p : Nat} {l : List α} :
    ∀ (n : Nat) (pos : Int) (h : Heap α) (hd : Option Nat), Jinv p l h hd →
      Jinv p l (shiftLoop pos n h hd).1 (shiftLoop pos n h hd).2 := by
  intro n
  induction n with
  | zero => intro pos h hd hJ; exact hJ
  | succ n ih =>
    intro pos h hd hJ
    simp only [shiftLoop]
    exact ih pos _ _ (Jinv_set hJ _ _)

theorem Jinv_insert [Inhabited α] {p : Nat} {l : List α} {h : Heap α}
    {hd : Option Nat} (hJ : Jinv p l h hd) (is32 : Bool) (esize : Nat)
    (pos : Int) (v : α) :
    Jinv p l (insert is32 esize h hd pos v).1 (insert is32 esize h hd pos v).2.1 := by
  simp only [insert]
  by_cases hg : pos < 0 ∨ size h hd + 1 ≤ pos
  · rw [if_pos hg]
    exact hJ
  · rw [if_neg hg]
    exact Jinv_set (Jinv_shiftLoop _ _ _ _ (Jinv_resize hJ is32 esize _)) pos v

end CowDataModel
namespace CowDataModel

/-! ### Bridging lemmas between heap observations and the payload list -/

variable {α : Type}

theorem validHandle_some {h : Heap α} {p : Nat} (hv : ValidHandle h (some p)) :
    ∃ s, h.lookup p = some s ∧ 0 < s.data.length := by
  have hv2 : validHandle h (some p) = true := hv
  cases hlq : h.lookup p with
  | none =>
    simp only [validHandle, hlq] at hv2
    exact (Bool.false_ne_true hv2).elim
  | some s =>
    simp only [validHandle, hlq, decide_eq_true_eq] at hv2
    exact ⟨s, rfl, hv2⟩

theorem size_eq_observe (h : Heap α) (hd : Option Nat) :
    size h hd = ((observe h hd).length : Int) := by
  cases hd with
  | none => rfl
  | some p =>
    cases hlq : h.lookup p with
    | none => simp [size, observe, hlq]
    | some s => simp [size, observe, hlq]

theorem get_eq_observe_getD [Inhabited α] (h : Heap α) (hd : Option Nat) (k : Nat) :
    get h hd (k : Int) = (observe h hd).getD k default := by
  cases hd with
  | none => rfl
  | some p =>
    cases hlq : h.lookup p with
    | none => simp [get, observe, hlq]
    | some s =>
      have hcast : ((k : Int)).toNat = k := by omega
      simp [get, observe, hlq, hcast]

theorem getD_of_getElem? [Inhabited α] {L : List α} {k : Nat} {x : α}
    (hx : L[k]? = some x) : L.getD k default = x := by
  have hk : k < L.length := by
    by_contra hc
    rw [List.getElem?_eq_none (by omega)] at hx
    cases hx
  rw [List.getD_eq_getElem L default hk]
  rw [List.getElem?_eq_getElem hk] at hx
  exact Option.some.inj hx

theorem observedIntact_of_lookup [Inhabited α] {h : Heap α} {p rc : Nat}
    {l : List α} (hl : h.lookup p = some ⟨rc, l⟩) : observedIntact l h (some p) :=
  ⟨observe_some hl, size_some hl, fun _ h0 => get_some hl h0⟩

/-! ### C10, C4, C2, C5 -/

/-- C10: assignment between handles that already share the same storage —
including self-assignment — is a complete no-op: `_ref` (the body of
`operator=` and of the copy constructor) first compares the two storage
references and returns immediately when they are identical, so the heap (and
with it every refcount) and both handles are unchanged.  Two handles sharing
one storage are the same pointer value, so `dst = src = hd` covers both the
self-assignment and the shared-storage case. -/
theorem c10_ref_same_storage_noop (h : Heap α) (hd : Option Nat) :
    ref h hd hd = (h, hd) := by
  simp [ref]

/-- C4 (the code does not implement the claim): in resize's grow-from-scratch
branch (lines 325-327) the allocator result is advanced past the header pad
*before* `ERR_FAIL_NULL_V` runs, so when the allocator returns null (address
0) the OUT_OF_MEMORY guard does not fire — `resize` proceeds to write the
header through the advanced null pointer instead of returning
`ERR_OUT_OF_MEMORY` with the handle unchanged. -/
theorem c4_null_check_dead_on_alloc_failure :
    grow_from_scratch_oom_detected 0 = false := by
  decide

/-- C2: the copy-on-write trigger contract.  A null handle is a no-op
returning 0; a handle whose refcount is at most 1 is a no-op returning that
refcount; a shared handle (refcount ≥ 2) adopts a fresh allocation (an
identity not previously live) whose refcount is 1 and whose payload — hence
also stored length — equals the old storage's, decrements the old storage's
refcount by one, leaves every other block untouched, and returns 1. -/
theorem c2_copy_on_write_trigger_contract {h : Heap α} (hwf : Wf h) :
    copy_on_write h none = (h, none, 0) ∧
    (∀ p s, h.lookup p = some s → s.refcount ≤ 1 →
      copy_on_write h (some p) = (h, some p, s.refcount)) ∧
    (∀ p s, h.lookup p = some s → 2 ≤ s.refcount →
      (copy_on_write h (some p)).2.1 = some h.next ∧
      (copy_on_write h (some p)).2.2 = 1 ∧
      h.lookup h.next = none ∧
      (copy_on_write h (some p)).1.lookup h.next = some ⟨1, s.data⟩ ∧
      (copy_on_write h (some p)).1.lookup p = some ⟨s.refcount - 1, s.data⟩ ∧
      ∀ q, q ≠ p → q ≠ h.next → (copy_on_write h (some p)).1.lookup q = h.lookup q) := by
  refine ⟨cow_none h, fun p s hl h1 => cow_owned hl h1, fun p s hl h2 => ?_⟩
  obtain ⟨hp1, hn1, hother, _, _⟩ := cow_shared_state hwf hl h2
  exact ⟨by rw [cow_shared hwf hl h2], by rw [cow_shared hwf hl h2],
    Wf.lookup_next hwf, hn1, hp1, hother⟩

theorem c2_witness :
    Wf heapShared ∧
    (copy_on_write heapShared none = (heapShared, none, 0) ∧
    (∀ p s, heapShared.lookup p = some s → s.refcount ≤ 1 →
      copy_on_write heapShared (some p) = (heapShared, some p, s.refcount)) ∧
    (∀ p s, heapShared.lookup p = some s → 2 ≤ s.refcount →
      (copy_on_write heapShared (some p)).2.1 = some heapShared.next ∧
      (copy_on_write heapShared (some p)).2.2 = 1 ∧
      heapShared.lookup heapShared.next = none ∧
      (copy_on_write heapShared (some p)).1.lookup heapShared.next = some ⟨1, s.data⟩ ∧
      (copy_on_write heapShared (some p)).1.lookup p = some ⟨s.refcount - 1, s.data⟩ ∧
      ∀ q, q ≠ p → q ≠ heapShared.next →
        (copy_on_write heapShared (some p)).1.lookup q = heapShared.lookup q)) :=
  ⟨by decide, c2_copy_on_write_trigger_contract (by decide)⟩

/-- C5: `resize(0)` from any valid prior state (empty, exclusively owned or
shared) releases the handle's reference via `_unref`, nulls the handle and
returns OK — so `is_empty()` is true and `size()` is 0 afterwards; a negative
requested size fails with `ERR_INVALID_PARAMETER` leaving the handle
untouched; and resizing to the current size is a no-op returning OK. -/
theorem c5_resize_zero_and_guards [Inhabited α] (is32 : Bool) (esize : Nat)
    {h : Heap α} {hd : Option Nat} (hv : ValidHandle h hd) :
    resize is32 esize h hd 0 = (unref h hd, none, Err.OK) ∧
    is_empty (resize is32 esize h hd 0).2.1 = true ∧
    size (resize is32 esize h hd 0).1 (resize is32 esize h hd 0).2.1 = 0 ∧
    (∀ n : Int, n < 0 → resize is32 esize h hd n = (h, hd, Err.ERR_INVALID_PARAMETER)) ∧
    resize is32 esize h hd (size h hd) = (h, hd, Err.OK) := by
  have hmain : resize is32 esize h hd 0 = (unref h hd, none, Err.OK) := by
    cases hd with
    | none =>
      rw [resize_same (by rw [size_none])]
      rfl
    | some p =>
      obtain ⟨s, hl, hlen⟩ := validHandle_some hv
      refine resize_zero ?_
      rw [size_some hl]
      omega
  refine ⟨hmain, by rw [hmain]; rfl, by rw [hmain]; rfl,
    fun n hn => resize_neg hn, resize_same rfl⟩

theorem c5_witness :
    ValidHandle heapA (some 0) ∧
    (resize false 4 heapA (some 0) 0 = (unref heapA (some 0), none, Err.OK) ∧
    is_empty (resize false 4 heapA (some 0) 0).2.1 = true ∧
    size (resize false 4 heapA (some 0) 0).1 (resize false 4 heapA (some 0) 0).2.1 = 0 ∧
    (∀ n : Int, n < 0 →
      resize false 4 heapA (some 0) n = (heapA, some 0, Err.ERR_INVALID_PARAMETER)) ∧
    resize false 4 heapA (some 0) (size heapA (some 0)) = (heapA, some 0, Err.OK)) :=
  ⟨by decide, c5_resize_zero_and_guards false 4 (by decide)⟩

end CowDataModel
namespace CowDataModel

/-! ### C3: capacity-arithmetic overflow detection -/

variable {α : Type}

/-- C3 counterexample: the claim fails on the default build path (everything
except 32-bit GCC).  Requesting `2^61 + 1` elements of 8 bytes each is a true
byte count of `2^64 + 8`, which overflows `USize`; yet
`_get_alloc_size_checked` computes the wrapped product 8, "succeeds" with the
silently truncated size 8, and `resize` on an empty handle returns OK instead
of ERR_OUT_OF_MEMORY.  (The source comment on this path says the operations
are deliberately unchecked.) -/
theorem c3_counterexample :
    2 ^ 64 ≤ (2 ^ 61 + 1) * 8 ∧
    get_alloc_size_checked false 8 (2 ^ 61 + 1) = some 8 ∧
    (resize false 8 heapEmpty none ((2 : Int) ^ 61 + 1)).2.2 = Err.OK := by
  refine ⟨by decide, by decide, by decide⟩

/-- C3 amended: only on the 32-bit GCC build path is capacity arithmetic
overflow detected and reported.  There, for every element count `n` whose true
byte count `n * esize` exceeds `2^63` — which covers every overflow of the
multiplication, of the power-of-two rounding, and of the `o + 32` pad
addition — `_get_alloc_size_checked` reports failure, and any `resize` that
reaches the check (positive requested size different from the current one)
returns ERR_OUT_OF_MEMORY.  On other builds the arithmetic is unchecked
modulo `2^64` (see the counterexample). -/
theorem c3_amended_checked_path_detects_overflow (esize n : Nat)
    (hover : 2 ^ 63 < n * esize) :
    get_alloc_size_checked true esize n = none ∧
    ∀ {β : Type} [Inhabited β] (h : Heap β) (hd : Option Nat) (psize : Int),
      psize.toNat = n → psize ≠ size h hd →
      (resize true esize h hd psize).2.2 = Err.ERR_OUT_OF_MEMORY := by
  have hn : n ≠ 0 := by
    intro hc
    subst hc
    simp at hover
  have hchk : get_alloc_size_checked true esize n = none := by
    simp only [get_alloc_size_checked, if_neg hn, if_true]
    by_cases hm : USIZE_MOD ≤ n * esize
    · rw [if_pos hm]
    · rw [if_neg hm]
      have ho2 : n * esize < 2 ^ 64 := by
        unfold USIZE_MOD at hm
        omega
      by_cases ha : USIZE_MOD ≤ n * esize + 32
      · rw [if_pos ha]
      · rw [if_neg ha, next_po2_high hover ho2]
        simp
  refine ⟨hchk, ?_⟩
  intro β _ h hd psize hpn hne
  have hp : 0 < psize := by
    by_contra hc
    push_neg at hc
    exact hn (by omega)
  rw [resize_oom hp hne (by rw [hpn]; exact hchk)]

theorem c3_amended_witness :
    2 ^ 63 < (2 ^ 61 + 1) * 8 ∧
    get_alloc_size_checked true 8 (2 ^ 61 + 1) = none ∧
    (resize true 8 heapEmpty none ((2 : Int) ^ 61 + 1)).2.2 = Err.ERR_OUT_OF_MEMORY :=
  ⟨by decide, (c3_amended_checked_path_detects_overflow 8 (2 ^ 61 + 1) (by decide)).1,
    (c3_amended_checked_path_detects_overflow 8 (2 ^ 61 + 1) (by decide)).2 heapEmpty none
      ((2 : Int) ^ 61 + 1) (by decide) (by decide)⟩

/-! ### C7 and C8: find and rfind -/

/-- C7 counterexample: on the one-element buffer `[5]`, `find(5, -1)` returns
`-1`, although index 0 satisfies `0 ≥ -1` and holds the value — the lowest
matching index at or after the start position, which the claim says `find`
returns.  The source returns `-1` unconditionally whenever `p_from < 0`
(line 383). -/
theorem c7_counterexample :
    find heapOne (some 0) 5 (-1) = -1 ∧
    size heapOne (some 0) = 1 ∧
    get heapOne (some 0) 0 = 5 := by
  refine ⟨by decide, by decide, by decide⟩

/-- C7 amended: for a negative starting index `find` returns `-1`
unconditionally; for a non-negative one it returns the lowest index `i ≥ from`
whose element equals `v`, and `-1` when no such index exists. -/
theorem c7_amended_find_lowest_match [DecidableEq α] [Inhabited α]
    (h : Heap α) (hd : Option Nat) (v : α) (f : Int) :
    (f < 0 → find h hd v f = -1) ∧
    (0 ≤ f →
      (find h hd v f = -1 ∧
        ∀ k : Nat, f.toNat ≤ k → k < (observe h hd).length →
          (observe h hd).getD k default ≠ v) ∨
      (∃ j : Nat, find h hd v f = (j : Int) ∧ f.toNat ≤ j ∧
        j < (observe h hd).length ∧ (observe h hd).getD j default = v ∧
        ∀ k : Nat, f.toNat ≤ k → k < j → (observe h hd).getD k default ≠ v)) := by
  have hsz := size_eq_observe h hd
  constructor
  · intro hf
    simp only [find]
    rw [if_pos (Or.inl hf)]
  · intro hf
    by_cases hzero : size h hd = 0
    · left
      constructor
      · simp only [find]
        rw [if_pos (Or.inr hzero)]
      · intro k _ hk
        rw [hsz] at hzero
        omega
    · simp only [find]
      rw [if_neg (by push_neg; exact ⟨by omega, hzero⟩)]
      rcases findLoop_spec h hd v ((size h hd - f).toNat) f hf with
        ⟨heq, hall⟩ | ⟨j, heq, hj1, hj2, hjv, hmin⟩
      · left
        refine ⟨heq, ?_⟩
        intro k hk1 hk2
        rw [← get_eq_observe_getD]
        exact hall k hk1 (by rw [hsz] at *; omega)
      · right
        refine ⟨j, heq, hj1, by rw [hsz] at hj2; omega, ?_, ?_⟩
        · rw [← get_eq_observe_getD]
          exact hjv
        · intro k hk1 hk2
          rw [← get_eq_observe_getD]
          exact hmin k hk1 hk2

theorem c7_amended_witness :
    ((-1 : Int) < 0 → find heapOne (some 0) 5 (-1) = -1) ∧
    ((0 : Int) ≤ 2 →
      (find heapTwo (some 0) 7 2 = -1 ∧
        ∀ k : Nat, (2 : Int).toNat ≤ k → k < (observe heapTwo (some 0)).length →
          (observe heapTwo (some 0)).getD k default ≠ 7) ∨
      (∃ j : Nat, find heapTwo (some 0) 7 2 = (j : Int) ∧ (2 : Int).toNat ≤ j ∧
        j < (observe heapTwo (some 0)).length ∧
        (observe heapTwo (some 0)).getD j default = 7 ∧
        ∀ k : Nat, (2 : Int).toNat ≤ k → k < j →
          (observe heapTwo (some 0)).getD k default ≠ 7)) :=
  ⟨(c7_amended_find_lowest_match heapOne (some 0) 5 (-1)).1,
    (c7_amended_find_lowest_match heapTwo (some 0) 7 2).2⟩

/-- C8 counterexample: on the buffer `[3, 7]` (`s = 2`), `rfind(7, -5)` wraps
the start to `s + from = -3`; the claim says this is then clamped into
`[0, s-1]`, i.e. to 0, and that the greatest matching index at most the start
is returned (here: none, so `-1`).  The source instead *resets* a
still-negative wrapped start to `s - 1 = 1` (line 404-405) and returns 1. -/
theorem c8_counterexample :
    rfind heapTwo (some 0) 7 (-5) = 1 ∧
    size heapTwo (some 0) = 2 ∧
    get heapTwo (some 0) 0 = 3 ∧
    get heapTwo (some 0) 1 = 7 := by
  refine ⟨by decide, by decide, by decide, by decide⟩

/-- C8 amended: a negative `from` is wrapped to `s + from`; if the wrapped
start (or a non-negative `from`) lies outside `[0, s-1]` the start is *reset
to `s - 1`* (not clamped to 0); `rfind` then scans backward from that start
and returns the greatest index at most the start whose element equals `v`, or
`-1` when none exists — in particular `-1` on an empty handle, where the
start is `-1`. -/
theorem c8_amended_rfind_greatest_match [DecidableEq α] [Inhabited α]
    (h : Heap α) (hd : Option Nat) (v : α) (f : Int) :
    ∀ st : Int,
      st = (if (if f < 0 then size h hd + f else f) < 0 ∨
              size h hd ≤ (if f < 0 then size h hd + f else f)
            then size h hd - 1 else (if f < 0 then size h hd + f else f)) →
      ((rfind h hd v f = -1 ∧
          ∀ k : Nat, (k : Int) ≤ st → (observe h hd).getD k default ≠ v) ∨
        (∃ j : Nat, rfind h hd v f = (j : Int) ∧ (j : Int) ≤ st ∧
          (observe h hd).getD j default = v ∧
          ∀ k : Nat, (j : Int) < (k : Int) → (k : Int) ≤ st →
            (observe h hd).getD k default ≠ v)) := by
  intro st hst
  have hrw : rfind h hd v f = rfindLoop h hd v ((st + 1).toNat) := by
    simp only [rfind]
    rw [← hst]
  rw [hrw]
  rcases rfindLoop_spec h hd v ((st + 1).toNat) with ⟨heq, hall⟩ | ⟨j, heq, hj, hjv, hmax⟩
  · left
    refine ⟨heq, ?_⟩
    intro k hk
    rw [← get_eq_observe_getD]
    exact hall k (by omega)
  · right
    refine ⟨j, heq, by omega, ?_, ?_⟩
    · rw [← get_eq_observe_getD]
      exact hjv
    · intro k hk1 hk2
      rw [← get_eq_observe_getD]
      exact hmax k (by omega) (by omega)

theorem c8_amended_witness :
    ((1 : Int) = (if (if (-5 : Int) < 0 then size heapTwo (some 0) + (-5) else (-5)) < 0 ∨
        size heapTwo (some 0) ≤ (if (-5 : Int) < 0 then size heapTwo (some 0) + (-5) else (-5))
      then size heapTwo (some 0) - 1
      else (if (-5 : Int) < 0 then size heapTwo (some 0) + (-5) else (-5)))) ∧
    ((rfind heapTwo (some 0) 7 (-5) = -1 ∧
        ∀ k : Nat, (k : Int) ≤ 1 → (observe heapTwo (some 0)).getD k default ≠ 7) ∨
      (∃ j : Nat, rfind heapTwo (some 0) 7 (-5) = (j : Int) ∧ (j : Int) ≤ 1 ∧
        (observe heapTwo (some 0)).getD j default = 7 ∧
        ∀ k : Nat, (j : Int) < (k : Int) → (k : Int) ≤ 1 →
          (observe heapTwo (some 0)).getD k default ≠ 7)) :=
  ⟨by decide,
    c8_amended_rfind_greatest_match heapTwo (some 0) 7 (-5) 1 (by decide)⟩

end CowDataModel
namespace CowDataModel

/-! ### C9: resize preserves the retained prefix -/

variable {α : Type}

/-- C9: on an exclusively owned handle (refcount 1, payload `l`), every
successful `resize(n)` with `n > 0` keeps the block's identity, returns OK,
makes the stored length `n`, and leaves every element at an index below
`min(l.length, n)` unchanged — construction and destruction only touch
indices at or above that bound.  The arithmetic side conditions make the
checked allocation size succeed, which is exactly when such a resize is
successful (`n.toNat * esize ≤ 2^63` holds for every allocation that can
exist in a 64-bit address space). -/
theorem c9_resize_preserves_prefix [Inhabited α] (is32 : Bool) (esize : Nat)
    {h : Heap α} {p : Nat} {l : List α}
    (hl : h.lookup p = some ⟨1, l⟩) (hlen : 0 < l.length)
    {n : Int} (hn : 0 < n) (he : 1 ≤ esize) (hb : n.toNat * esize ≤ 2 ^ 63) :
    ∃ l2 : List α,
      resize is32 esize h (some p) n = (h.update p ⟨1, l2⟩, some p, Err.OK) ∧
      (l2.length : Int) = n ∧
      ∀ k : Nat, k < min l.length n.toNat → l2[k]? = l[k]? := by
  have hchk := get_alloc_size_checked_ok is32 (by omega : 1 ≤ n.toNat) he hb
  have hsz : size h (some p) = (l.length : Int) := size_some hl
  rcases lt_trichotomy n (l.length : Int) with hlt | heqn | hgt
  · refine ⟨l.take n.toNat, ?_, ?_, ?_⟩
    · exact resize_shrink_inplace hl rfl hn hlt hchk
    · rw [List.length_take]
      omega
    · intro k hk
      simp only [List.getElem?_take]
      rw [if_pos (by omega)]
  · refine ⟨l, ?_, by omega, fun k _ => rfl⟩
    rw [resize_same (by rw [hsz]; exact heqn), Heap.update_self hl]
  · refine ⟨l ++ List.replicate (n.toNat - l.length) default, ?_, ?_, ?_⟩
    · exact resize_grow_inplace hl rfl hlen hgt hchk
    · rw [List.length_append, List.length_replicate]
      omega
    · intro k hk
      exact List.getElem?_append_left (by omega)

theorem c9_witness :
    heapA.lookup 0 = some ⟨1, [1, 2, 3]⟩ ∧ 0 < [1, 2, 3].length ∧
    (0 : Int) < 5 ∧ 1 ≤ 4 ∧ (5 : Int).toNat * 4 ≤ 2 ^ 63 ∧
    ∃ l2 : List Nat,
      resize false 4 heapA (some 0) 5 = (heapA.update 0 ⟨1, l2⟩, some 0, Err.OK) ∧
      (l2.length : Int) = 5 ∧
      ∀ k : Nat, k < min [1, 2, 3].length (5 : Int).toNat → l2[k]? = [1, 2, 3][k]? :=
  ⟨by decide, by decide, by decide, by decide, by decide,
    c9_resize_preserves_prefix false 4 (by decide) (by decide) (by decide)
      (by decide) (by decide)⟩

end CowDataModel
namespace CowDataModel

/-! ### C6: the insert contract -/

variable {α : Type}

theorem getD_congr_of_getElem? [Inhabited α] {A B : List α} {j k : Nat}
    (hAB : A[j]? = B[k]?) (hk : k < B.length) :
    A.getD j default = B.getD k default := by
  have hB : B[k]? = some (B.getD k default) := by
    rw [List.getElem?_eq_getElem hk, List.getD_eq_getElem B default hk]
  exact getD_of_getElem? (by rw [hAB, hB])

/-- The tail of `insert` (shifting loop plus final write), with the iteration
count written the way `insert` computes it from the re-read size. -/
theorem insert_body [Inhabited α] {H0 : Heap α} {q : Nat} {d : List α} {posN : Nat}
    (hlq : H0.lookup q = some ⟨1, d⟩) (hlen : posN < d.length) (v : α) :
    set (shiftLoop ((posN : Nat) : Int)
          (size H0 (some q) - 1 - ((posN : Nat) : Int)).toNat H0 (some q)).1
        (shiftLoop ((posN : Nat) : Int)
          (size H0 (some q) - 1 - ((posN : Nat) : Int)).toNat H0 (some q)).2
        ((posN : Nat) : Int) v =
      (H0.update q ⟨1, (shiftList d posN (d.length - 1 - posN)).set posN v⟩, some q) := by
  have hsz : size H0 (some q) = (d.length : Int) := size_some hlq
  have hK : (size H0 (some q) - 1 - ((posN : Nat) : Int)).toNat = d.length - 1 - posN := by
    rw [hsz]
    omega
  rw [hK]
  exact insert_tail hlq hlen v

/-- A valid `insert` call resolves to one final exclusive block holding the
shifted-and-written payload. -/
theorem insert_valid_result [Inhabited α] (is32 : Bool) {esize : Nat} {h : Heap α}
    {hd : Option Nat} (hwf : Wf h) (hv : ValidHandle h hd) (he : 1 ≤ esize)
    (hb : ((observe h hd).length + 1) * esize ≤ 2 ^ 63) {pos : Int} (h0 : 0 ≤ pos)
    (hpos : pos ≤ ((observe h hd).length : Int)) (v : α) :
    ∃ (H : Heap α) (q : Nat),
      (∃ s0, H.lookup q = some s0) ∧
      insert is32 esize h hd pos v =
        (H.update q ⟨1, (shiftList (observe h hd ++ [default]) pos.toNat
            ((observe h hd).length - pos.toNat)).set pos.toNat v⟩, some q, Err.OK) := by
  have hszo := size_eq_observe h hd
  have hg : ¬ (pos < 0 ∨ size h hd + 1 ≤ pos) := by
    push_neg
    exact ⟨h0, by omega⟩
  have hpc : ((pos.toNat : Nat) : Int) = pos := Int.toNat_of_nonneg h0
  simp only [insert]
  rw [if_neg hg]
  cases hd with
  | none =>
    have hobs : observe h none = ([] : List α) := rfl
    have hps : (size h none + 1).toNat = 1 := by rw [size_none]; rfl
    have hchk : get_alloc_size_checked is32 esize (size h none + 1).toNat
        = some (next_po2 (1 * esize)) := by
      rw [hps]
      exact get_alloc_size_checked_ok is32 (le_refl 1) he (by simpa [observe] using hb)
    have hr : resize is32 esize h none (size h none + 1) =
        ((h.alloc ⟨1, List.replicate (size h none + 1).toNat default⟩).1,
          some h.next, Err.OK) :=
      resize_grow_fresh (by rw [size_none]; norm_num) hchk
    rw [hps] at hr
    have hrep : (List.replicate 1 default : List α) = [default] := rfl
    rw [hrep] at hr
    have hlq : (h.alloc ⟨1, [default]⟩).1.lookup h.next = some ⟨1, ([] : List α) ++ [default]⟩ := by
      rw [Heap.lookup_alloc_self]
      rfl
    have hp0 : pos = 0 := by
      simp only [hobs] at hpos
      omega
    refine ⟨(h.alloc ⟨1, [default]⟩).1, h.next, ⟨⟨1, [default]⟩, Heap.lookup_alloc_self h _⟩, ?_⟩
    rw [hr]
    rw [← hpc]
    rw [insert_body hlq (by simp [hp0]) v]
    simp [hobs, hp0]
  | some p =>
    obtain ⟨s, hl, hlen⟩ := validHandle_some hv
    have hobs : observe h (some p) = s.data := observe_some hl
    have hsz : size h (some p) = (s.data.length : Int) := size_some hl
    have hps : (size h (some p) + 1).toNat = s.data.length + 1 := by rw [hsz]; omega
    rw [hobs] at hb hpos
    have hchk : get_alloc_size_checked is32 esize (size h (some p) + 1).toNat
        = some (next_po2 ((s.data.length + 1) * esize)) := by
      rw [hps]
      exact get_alloc_size_checked_ok is32 (by omega) he hb
    have hgt : (s.data.length : Int) < size h (some p) + 1 := by rw [hsz]; omega
    have hrep : (size h (some p) + 1).toNat - s.data.length = 1 := by
      rw [hps]
      omega
    have hrepl : List.replicate ((size h (some p) + 1).toNat - s.data.length)
        (default : α) = [default] := by rw [hrep, List.replicate_one]
    have hposn : pos.toNat ≤ s.data.length := by omega
    have hcnt : (s.data ++ [default]).length - 1 - pos.toNat
        = s.data.length - pos.toNat := by simp
    by_cases hsh : 2 ≤ s.refcount
    · have hr := resize_grow_shared hwf hl hsh hlen hgt hchk
      rw [hrepl] at hr
      have hpn : p ≠ h.next := by
        have := Wf.lookup_lt hwf hl
        omega
      have hx : ((h.alloc ⟨1, s.data⟩).1.update p
          ⟨s.refcount - 1, s.data⟩).lookup h.next = some ⟨1, s.data⟩ := by
        rw [Heap.lookup_update_ne _ _ _ (Ne.symm hpn), Heap.lookup_alloc_self]
      have hlq : (((h.alloc ⟨1, s.data⟩).1.update p ⟨s.refcount - 1, s.data⟩).update
          h.next ⟨1, s.data ++ [default]⟩).lookup h.next
          = some ⟨1, s.data ++ [default]⟩ := by
        rw [Heap.lookup_update_self, hx]
        rfl
      refine ⟨_, h.next, ⟨⟨1, s.data ++ [default]⟩, hlq⟩, ?_⟩
      rw [hr]
      rw [← hpc]
      rw [insert_body hlq (by simp; omega) v]
      rw [hobs, hcnt]
      rfl
    · have h1 : s.refcount = 1 := by
        have := Wf.lookup_refcount hwf hl
        omega
      have hr := resize_grow_inplace hl h1 hlen hgt hchk
      rw [hrepl] at hr
      have hlq : (h.update p ⟨1, s.data ++ [default]⟩).lookup p
          = some ⟨1, s.data ++ [default]⟩ := by
        rw [Heap.lookup_update_self, hl]
        rfl
      refine ⟨h.update p ⟨1, s.data ++ [default]⟩, p, ⟨⟨1, s.data ++ [default]⟩, hlq⟩, ?_⟩
      rw [hr]
      rw [← hpc]
      rw [insert_body hlq (by simp; omega) v]
      rw [hobs, hcnt]
      rfl

end CowDataModel
namespace CowDataModel

variable {α : Type}

/-- C6: the insert contract.  For a valid handle with observed payload of
length `L`: a position outside `[0, L]` fails with `ERR_INVALID_PARAMETER`
and leaves heap and handle unchanged; a position in `[0, L]` (the append
position `L` included) succeeds with OK, the length grows by one, the
elements formerly at `[pos, L)` move up one index preserving order, the
elements before `pos` stay, and `get(pos)` afterwards reads `v`.  The bound
`(L + 1) * esize ≤ 2^63` makes the checked allocation size of the embedded
`resize` succeed; it holds for every buffer that can exist in a 64-bit
address space. -/
theorem c6_insert_contract [Inhabited α] (is32 : Bool) (esize : Nat) {h : Heap α}
    {hd : Option Nat} (hwf : Wf h) (hv : ValidHandle h hd) (he : 1 ≤ esize)
    (hb : ((observe h hd).length + 1) * esize ≤ 2 ^ 63) :
    (∀ (pos : Int) (v : α), pos < 0 ∨ ((observe h hd).length : Int) < pos →
      insert is32 esize h hd pos v = (h, hd, Err.ERR_INVALID_PARAMETER)) ∧
    (∀ (pos : Int) (v : α), 0 ≤ pos → pos ≤ ((observe h hd).length : Int) →
      (insert is32 esize h hd pos v).2.2 = Err.OK ∧
      size (insert is32 esize h hd pos v).1 (insert is32 esize h hd pos v).2.1 =
        ((observe h hd).length : Int) + 1 ∧
      get (insert is32 esize h hd pos v).1 (insert is32 esize h hd pos v).2.1 pos = v ∧
      (∀ i : Int, 0 ≤ i → i < pos →
        get (insert is32 esize h hd pos v).1 (insert is32 esize h hd pos v).2.1 i =
          get h hd i) ∧
      (∀ i : Int, pos ≤ i → i < ((observe h hd).length : Int) →
        get (insert is32 esize h hd pos v).1 (insert is32 esize h hd pos v).2.1 (i + 1) =
          get h hd i)) := by
  have hszo := size_eq_observe h hd
  constructor
  · intro pos v hc
    simp only [insert]
    rw [if_pos ?_]
    rcases hc with hc | hc
    · exact Or.inl hc
    · exact Or.inr (by omega)
  · intro pos v h0 hpos
    obtain ⟨H, q, ⟨s0, hlq0⟩, hins⟩ := insert_valid_result is32 hwf hv he hb h0 hpos v
    have hlq2 : (H.update q ⟨1, (shiftList (observe h hd ++ [default]) pos.toNat
        ((observe h hd).length - pos.toNat)).set pos.toNat v⟩).lookup q
        = some ⟨1, (shiftList (observe h hd ++ [default]) pos.toNat
            ((observe h hd).length - pos.toNat)).set pos.toNat v⟩ := by
      rw [Heap.lookup_update_self, hlq0]
      rfl
    obtain ⟨hflen, hfpos, hfpre, hfshift⟩ :=
      insert_final_getElem (observe h hd) pos.toNat (by omega) v
    refine ⟨by rw [hins], ?_, ?_, ?_, ?_⟩
    · rw [hins]
      show size (H.update q _) (some q) = _
      rw [size_some hlq2]
      simp only [hflen]
      push_cast
      ring
    · rw [hins]
      show get (H.update q _) (some q) pos = v
      rw [get_some hlq2 h0]
      exact getD_of_getElem? hfpos
    · intro i hi0 hilt
      rw [hins]
      show get (H.update q _) (some q) i = get h hd i
      rw [get_some hlq2 hi0]
      have hic : ((i.toNat : Nat) : Int) = i := Int.toNat_of_nonneg hi0
      conv_rhs => rw [← hic]
      rw [get_eq_observe_getD]
      exact getD_congr_of_getElem? (hfpre i.toNat (by omega)) (by omega)
    · intro i hige hilt
      rw [hins]
      show get (H.update q _) (some q) (i + 1) = get h hd i
      rw [get_some hlq2 (by omega)]
      have hi1 : (i + 1).toNat = i.toNat + 1 := by omega
      rw [hi1]
      have hic : ((i.toNat : Nat) : Int) = i := Int.toNat_of_nonneg (by omega)
      conv_rhs => rw [← hic]
      rw [get_eq_observe_getD]
      exact getD_congr_of_getElem? (hfshift i.toNat (by omega) (by omega)) (by omega)

theorem c6_witness :
    Wf heapA ∧ ValidHandle heapA (some 0) ∧ 1 ≤ 4 ∧
    ((observe heapA (some 0)).length + 1) * 4 ≤ 2 ^ 63 ∧
    insert false 4 heapA (some 0) 5 9 = (heapA, some 0, Err.ERR_INVALID_PARAMETER) ∧
    ((insert false 4 heapA (some 0) 1 9).2.2 = Err.OK ∧
      size (insert false 4 heapA (some 0) 1 9).1 (insert false 4 heapA (some 0) 1 9).2.1 =
        ((observe heapA (some 0)).length : Int) + 1 ∧
      get (insert false 4 heapA (some 0) 1 9).1 (insert false 4 heapA (some 0) 1 9).2.1 1 = 9 ∧
      (∀ i : Int, 0 ≤ i → i < 1 →
        get (insert false 4 heapA (some 0) 1 9).1 (insert false 4 heapA (some 0) 1 9).2.1 i =
          get heapA (some 0) i) ∧
      (∀ i : Int, 1 ≤ i → i < ((observe heapA (some 0)).length : Int) →
        get (insert false 4 heapA (some 0) 1 9).1 (insert false 4 heapA (some 0) 1 9).2.1 (i + 1) =
          get heapA (some 0) i)) :=
  ⟨by decide, by decide, by decide, by decide,
    (c6_insert_contract false 4 (by decide) (by decide) (by decide) (by decide)).1 5 9
      (by right; decide),
    (c6_insert_contract false 4 (by decide) (by decide) (by decide) (by decide)).2 1 9
      (by decide) (by decide)⟩

end CowDataModel
namespace CowDataModel

variable {α : Type}

/-! ### C1: copy-then-mutate isolation -/

/-- C1: copy-then-mutate isolation.  Starting from an exclusively owned block
`p` holding `l` (handle A), copying the handle (`_ref` into a fresh empty
handle, the body of the copy constructor and of `operator=`) makes A and B
the same pointer value sharing storage `p` with refcount 2.  Afterwards, any
single mutation through B — `set(i, v)` for any index, `resize(n)` for any
requested size (including 0 and failing requests), or `insert(pos, v)` for
any position — leaves the sequence observed through A intact: `observe`
still yields `l`, `size()` still returns `l.length`, and every in-range
`get(i)` still reads `l`.  Because A and B hold the identical pointer value,
the same statement read with the roles swapped is the symmetric direction:
mutating A leaves B's observed sequence unchanged. -/
theorem c1_copy_then_mutate_isolation [Inhabited α] (is32 : Bool) (esize : Nat)
    {h : Heap α} {p : Nat} {l : List α} (hwf : Wf h)
    (hl : h.lookup p = some ⟨1, l⟩) :
    ref h none (some p) = (h.update p ⟨2, l⟩, some p) ∧
    (∀ (i : Int) (v : α),
      observedIntact l (set (h.update p ⟨2, l⟩) (some p) i v).1 (some p)) ∧
    (∀ n : Int,
      observedIntact l (resize is32 esize (h.update p ⟨2, l⟩) (some p) n).1 (some p)) ∧
    (∀ (pos : Int) (v : α),
      observedIntact l (insert is32 esize (h.update p ⟨2, l⟩) (some p) pos v).1 (some p)) := by
  have href : ref h none (some p) = (h.update p ⟨2, l⟩, some p) := by
    simp only [ref]
    rw [if_neg (by simp), unref_none, hl]
    norm_num
  have hJ0 : Jinv p l (h.update p ⟨2, l⟩) (some p) := by
    refine ⟨Wf.update hwf (by norm_num), 2, by norm_num, ?_, fun _ => le_refl 2⟩
    rw [Heap.lookup_update_self, hl]
    rfl
  have hobsJ : ∀ (h2 : Heap α) (hd2 : Option Nat), Jinv p l h2 hd2 →
      observedIntact l h2 (some p) := by
    rintro h2 hd2 ⟨_, rc, _, hlp2, _⟩
    exact observedIntact_of_lookup hlp2
  refine ⟨href, ?_, ?_, ?_⟩
  · intro i v
    exact hobsJ _ _ (Jinv_set hJ0 i v)
  · intro n
    exact hobsJ _ _ (Jinv_resize hJ0 is32 esize n)
  · intro pos v
    exact hobsJ _ _ (Jinv_insert hJ0 is32 esize pos v)

theorem c1_witness :
    Wf heapA ∧ heapA.lookup 0 = some ⟨1, [1, 2, 3]⟩ ∧
    ref heapA none (some 0) = (heapA.update 0 ⟨2, [1, 2, 3]⟩, some 0) ∧
    observedIntact [1, 2, 3] (set (heapA.update 0 ⟨2, [1, 2, 3]⟩) (some 0) 0 9).1 (some 0) ∧
    observedIntact [1, 2, 3]
      (resize false 4 (heapA.update 0 ⟨2, [1, 2, 3]⟩) (some 0) 0).1 (some 0) ∧
    observedIntact [1, 2, 3]
      (resize false 4 (heapA.update 0 ⟨2, [1, 2, 3]⟩) (some 0) 5).1 (some 0) ∧
    observedIntact [1, 2, 3]
      (insert false 4 (heapA.update 0 ⟨2, [1, 2, 3]⟩) (some 0) 1 9).1 (some 0) :=
  ⟨by decide, by decide,
    (c1_copy_then_mutate_isolation false 4 (by decide) (by decide)).1,
    (c1_copy_then_mutate_isolation false 4 (by decide) (by decide)).2.1 0 9,
    (c1_copy_then_mutate_isolation false 4 (by decide) (by decide)).2.2.1 0,
    (c1_copy_then_mutate_isolation false 4 (by decide) (by decide)).2.2.1 5,
    (c1_copy_then_mutate_isolation false 4 (by decide) (by decide)).2.2.2 1 9⟩

end CowDataModel
